import Mathlib

/-!
# Verification of the subprocess JSON-RPC bridge (rust-backend)

A shallow embedding of the Rust sources of the `school-payment` repository:

* `json_rpc.rs` — the `JsonRpcRequest` / `JsonRpcResponse` / `JsonRpcError`
  wire types together with their serde serialization and deserialization.
* `lean_repl.rs` — the `extract_json` stream framer, the stdout reader loop,
  and the control flow of `LeanRepl::start`, `LeanRepl::send_request`,
  `LeanRepl::is_running`.
* `handlers.rs` — `health_check`.
* `storage.rs` — `Storage::save` / `Storage::load` over a filesystem model.

JSON values are modelled by the inductive `Json` below, mirroring
`serde_json::Value`.  Numbers mirror `serde_json::Number`'s three-variant
representation (`PosInt`/`NegInt`/`Float`); a float is kept as its decimal
components (sign, integer part, fraction digits, exponent) rather than as an
IEEE-754 double — no claim under consideration depends on float arithmetic or
on ryu re-normalisation, only on the variant split (cross-variant equality is
`false` in serde_json, which the structural equality here reproduces).
Objects mirror `serde_json::Map<String, Value>` (a `BTreeMap`): a
key-sorted association list built by sorted insertion with last-wins
semantics.
-/

/-- Decimal digit value list, each entry `< 10` under `wf`. -/
abbrev Digits := List Nat

/-- Model of `serde_json::Number`: `PosInt(u64)`, `NegInt(i64)` (negative
values only — serde normalises non-negative `i64` to `PosInt`), and `Float`.
A float is kept as its decimal reading: sign, integer part, fraction digits,
optional exponent (explicit sign flag and digit list). -/
inductive JNum where
  | uint (n : Nat)
  | int (n : Int)
  | float (neg : Bool) (ip : Nat) (fr : Digits) (ex : Option (Option Bool × Digits))
deriving DecidableEq, Repr

/-- Model of `serde_json::Value`. -/
inductive Json where
  | null
  | bool (b : Bool)
  | num (n : JNum)
  | str (s : String)
  | arr (elems : List Json)
  | obj (fields : List (String × Json))
deriving Repr

namespace Json

mutual

/-- Structural equality test on values (model of `Value: PartialEq`; note
that serde_json's number equality is cross-variant-`false`, matching the
structural test here). -/
def beq : Json → Json → Bool
  | null, null => true
  | bool b₁, bool b₂ => b₁ == b₂
  | num n₁, num n₂ => n₁ == n₂
  | str s₁, str s₂ => s₁ == s₂
  | arr a, arr b => beqElems a b
  | obj a, obj b => beqFields a b
  | _, _ => false

def beqElems : List Json → List Json → Bool
  | [], [] => true
  | a :: as₁, b :: bs => beq a b && beqElems as₁ bs
  | _, _ => false

def beqFields : List (String × Json) → List (String × Json) → Bool
  | [], [] => true
  | (k₁, v₁) :: as₁, (k₂, v₂) :: bs => k₁ == k₂ && beq v₁ v₂ && beqFields as₁ bs
  | _, _ => false

end

mutual

theorem beq_iff_eq : ∀ a b : Json, beq a b = true ↔ a = b
  | null, b => by cases b <;> simp [beq]
  | bool _, b => by cases b <;> simp [beq]
  | num _, b => by cases b <;> simp [beq]
  | str _, b => by cases b <;> simp [beq]
  | arr x, b => by
    cases b <;> simp [beq]
    exact beqElems_iff_eq x _
  | obj x, b => by
    cases b <;> simp [beq]
    exact beqFields_iff_eq x _

theorem beqElems_iff_eq : ∀ xs ys : List Json, beqElems xs ys = true ↔ xs = ys
  | [], [] => by simp [beqElems]
  | [], _ :: _ => by simp [beqElems]
  | _ :: _, [] => by simp [beqElems]
  | x :: xs, y :: ys => by
    simp [beqElems, beq_iff_eq x y, beqElems_iff_eq xs ys]

theorem beqFields_iff_eq : ∀ fs gs : List (String × Json), beqFields fs gs = true ↔ fs = gs
  | [], [] => by simp [beqFields]
  | [], _ :: _ => by simp [beqFields]
  | _ :: _, [] => by simp [beqFields]
  | (k₁, w₁) :: fs, (k₂, w₂) :: gs => by
    simp [beqFields, beq_iff_eq w₁ w₂, beqFields_iff_eq fs gs, and_assoc]

end

instance : DecidableEq Json :=
  fun a b => decidable_of_iff (beq a b = true) (beq_iff_eq a b)

/-- Lexicographic order on character lists.  For Unicode scalar sequences
this coincides with the byte-wise order of their UTF-8 encodings, which is
the `Ord` a Rust `BTreeMap<String, _>` sorts by. -/
def charsLt : List Char → List Char → Bool
  | [], [] => false
  | [], _ :: _ => true
  | _ :: _, [] => false
  | a :: as₁, b :: bs =>
    if a.toNat < b.toNat then true
    else if b.toNat < a.toNat then false
    else charsLt as₁ bs

/-- The key order of `serde_json::Map` (a `BTreeMap<String, Value>`). -/
def keyLt (a b : String) : Bool := charsLt a.data b.data

/-- `BTreeMap::insert`: place the binding at its sorted position, replacing
an equal key (last write wins). -/
def insertSorted (k : String) (v : Json) : List (String × Json) → List (String × Json)
  | [] => [(k, v)]
  | (k₁, v₁) :: t =>
    if keyLt k k₁ then (k, v) :: (k₁, v₁) :: t
    else if k = k₁ then (k, v) :: t
    else (k₁, v₁) :: insertSorted k v t

/-- Build a `serde_json::Map` from the members in parse order, by repeated
insertion — the map the deserializer of `Value` accumulates. -/
def buildMap (ms : List (String × Json)) : List (String × Json) :=
  ms.foldl (fun m p => insertSorted p.1 p.2 m) []

/-- `Value::get(key)`: field lookup on an object, `none` on anything else. -/
def jget : Json → String → Option Json
  | obj fs, k => (fs.find? (fun p => p.1 == k)).map Prod.snd
  | _, _ => none

end Json

/-! ## The text layer: model of `serde_json::from_str::<Value>`

The parser works on `List Char` (Rust byte positions are only ever used at
character boundaries in this code base, so a character-list model is exact).
It is driven by a `fuel` counter for termination — `parseJsonL` passes more
fuel than any input can consume — and a `budget` counter that models
serde_json's recursion depth limit of 128, decremented on entering each
array or object exactly as serde's depth check does. -/

/-- The four whitespace characters serde_json skips between tokens. -/
def isWs (c : Char) : Bool := c == ' ' || c == '\t' || c == '\n' || c == '\r'

def skipWs : List Char → List Char
  | [] => []
  | c :: t => if isWs c then skipWs t else c :: t

def isDigit (c : Char) : Bool := decide (48 ≤ c.toNat) && decide (c.toNat ≤ 57)

def digitVal (c : Char) : Nat := c.toNat - 48

/-- The leading run of decimal digits, as digit values, plus the remainder. -/
def takeDigits : List Char → Digits × List Char
  | [] => ([], [])
  | c :: t =>
    if isDigit c then
      let (ds, r) := takeDigits t
      (digitVal c :: ds, r)
    else ([], c :: t)

def digitsVal (ds : Digits) : Nat := ds.foldl (fun a d => a * 10 + d) 0

def hexVal (c : Char) : Option Nat :=
  if 48 ≤ c.toNat ∧ c.toNat ≤ 57 then some (c.toNat - 48)
  else if 97 ≤ c.toNat ∧ c.toNat ≤ 102 then some (c.toNat - 87)
  else if 65 ≤ c.toNat ∧ c.toNat ≤ 70 then some (c.toNat - 55)
  else none

mutual

/-- Body of a JSON string, after the opening quote (serde's `parse_str`):
ends at an unescaped quote, rejects raw control characters, and hands an
escape sequence to `parseStrEscape`. -/
def parseStrBody (acc : List Char) : List Char → Option (String × List Char)
  | [] => none
  | c :: r =>
    if c = '"' then some (String.mk acc.reverse, r)
    else if c = '\\' then parseStrEscape acc r
    else if c.toNat < 0x20 then none
    else parseStrBody (c :: acc) r

/-- The escape handling of serde's `parse_str`, positioned after the
backslash: the eight short escapes and `\uXXXX` with surrogate pairs. -/
def parseStrEscape (acc : List Char) : List Char → Option (String × List Char)
  | [] => none
  | e :: r₁ =>
    if e = '"' then parseStrBody ('"' :: acc) r₁
    else if e = '\\' then parseStrBody ('\\' :: acc) r₁
    else if e = '/' then parseStrBody ('/' :: acc) r₁
    else if e = 'b' then parseStrBody ('\x08' :: acc) r₁
    else if e = 'f' then parseStrBody ('\x0C' :: acc) r₁
    else if e = 'n' then parseStrBody ('\n' :: acc) r₁
    else if e = 'r' then parseStrBody ('\r' :: acc) r₁
    else if e = 't' then parseStrBody ('\t' :: acc) r₁
    else if e = 'u' then
      match r₁ with
      | a :: b :: cc :: d :: r₂ =>
        match hexVal a, hexVal b, hexVal cc, hexVal d with
        | some h₁, some h₂, some h₃, some h₄ =>
          let n := ((h₁ * 16 + h₂) * 16 + h₃) * 16 + h₄
          if 0xDC00 ≤ n ∧ n < 0xE000 then none
          else if 0xD800 ≤ n ∧ n < 0xDC00 then
            match r₂ with
            | '\\' :: 'u' :: a₂ :: b₂ :: c₂ :: d₂ :: r₃ =>
              match hexVal a₂, hexVal b₂, hexVal c₂, hexVal d₂ with
              | some g₁, some g₂, some g₃, some g₄ =>
                let m := ((g₁ * 16 + g₂) * 16 + g₃) * 16 + g₄
                if 0xDC00 ≤ m ∧ m < 0xE000 then
                  parseStrBody
                    (Char.ofNat (0x10000 + (n - 0xD800) * 0x400 + (m - 0xDC00)) :: acc) r₃
                else none
              | _, _, _, _ => none
            | _ => none
          else parseStrBody (Char.ofNat n :: acc) r₂
        | _, _, _, _ => none
      | _ => none
    else none

end

/-- Classification of an integer literal (no fraction, no exponent): `u64`
when it fits, negative `i64` when it fits, otherwise serde falls back to a
float — exactly serde's `parse_integer` overflow behaviour.  `-0` normalises
to `PosInt 0` as `serde_json::Number::from(0i64)` does. -/
def numClassify (neg : Bool) (ip : Nat) : JNum :=
  if neg then
    if ip = 0 then .uint 0
    else if ip ≤ 2 ^ 63 then .int (-(ip : Int))
    else .float true ip [] none
  else if ip < 2 ^ 64 then .uint ip else .float false ip [] none

/-- The exponent's digit run, after any sign. -/
def numExpDigits (neg : Bool) (ip : Nat) (fr : Digits) (sg : Option Bool)
    (cs : List Char) : Option (JNum × List Char) :=
  let (eds, r) := takeDigits cs
  if eds.isEmpty then none else some (.float neg ip fr (some (sg, eds)), r)

/-- Exponent part, positioned just after the `e`/`E`. -/
def numExp (neg : Bool) (ip : Nat) (fr : Digits) (cs : List Char) :
    Option (JNum × List Char) :=
  match cs with
  | [] => none
  | c :: t =>
    if c = '+' then numExpDigits neg ip fr (some false) t
    else if c = '-' then numExpDigits neg ip fr (some true) t
    else numExpDigits neg ip fr none (c :: t)

/-- After the integer part: optional fraction (at least one digit), optional
exponent, then classify. -/
def numAfterInt (neg : Bool) (ip : Nat) (cs : List Char) : Option (JNum × List Char) :=
  match cs with
  | [] => some (numClassify neg ip, [])
  | c :: t =>
    if c = '.' then
      let (fds, r) := takeDigits t
      if fds.isEmpty then none
      else
        match r with
        | [] => some (.float neg ip fds none, [])
        | c₂ :: t₂ =>
          if c₂ = 'e' ∨ c₂ = 'E' then numExp neg ip fds t₂
          else some (.float neg ip fds none, c₂ :: t₂)
    else if c = 'e' ∨ c = 'E' then numExp neg ip [] t
    else some (numClassify neg ip, c :: t)

/-- A JSON number literal after the optional minus sign: `0` or a
nonzero-led digit run (leading zeros rejected as serde does), fraction,
exponent. -/
def parseNumBody (neg : Bool) : List Char → Option (JNum × List Char)
  | [] => none
  | c :: t =>
    if c = '0' then
      match t with
      | [] => numAfterInt neg 0 []
      | d :: _ => if isDigit d then none else numAfterInt neg 0 t
    else if isDigit c then
      let (ds, r) := takeDigits t
      numAfterInt neg (digitsVal (digitVal c :: ds)) r
    else none

/-- A JSON number literal: optional minus, then the digit body. -/
def parseNum (cs : List Char) : Option (JNum × List Char) :=
  match cs with
  | [] => none
  | c :: t => if c = '-' then parseNumBody true t else parseNumBody false (c :: t)

mutual

/-- One JSON value, dispatched on its first character as serde's
`parse_value` does.  `budget` is serde's `remaining_depth`: on entering an
array or object it is decremented first and the parse fails when the
decremented value reaches zero, exactly as `check_recursion` does — so
from the initial 128 the deepest parseable document has container
depth 127. -/
def parseVal (fuel budget : Nat) (cs : List Char) : Option (Json × List Char) :=
  match fuel with
  | 0 => none
  | fuel + 1 =>
    match cs with
    | [] => none
    | c :: t =>
      if c = 'n' then
        match t with
        | 'u' :: 'l' :: 'l' :: r => some (.null, r)
        | _ => none
      else if c = 't' then
        match t with
        | 'r' :: 'u' :: 'e' :: r => some (.bool true, r)
        | _ => none
      else if c = 'f' then
        match t with
        | 'a' :: 'l' :: 's' :: 'e' :: r => some (.bool false, r)
        | _ => none
      else if c = '"' then (parseStrBody [] t).map (fun p => (.str p.1, p.2))
      else if c = '\x7b' then
        if budget - 1 = 0 then none
        else
          match skipWs t with
          | [] => none
          | c₁ :: t₁ =>
            if c₁ = '\x7d' then some (.obj [], t₁)
            else
              match parseMembers fuel (budget - 1) (c₁ :: t₁) with
              | some (ms, r) => some (.obj (Json.buildMap ms), r)
              | none => none
      else if c = '[' then
        if budget - 1 = 0 then none
        else
          match skipWs t with
          | [] => none
          | c₁ :: t₁ =>
            if c₁ = ']' then some (.arr [], t₁)
            else
              match parseElems fuel (budget - 1) (c₁ :: t₁) with
              | some (es, r) => some (.arr es, r)
              | none => none
      else if c = '-' ∨ isDigit c then (parseNum (c :: t)).map (fun p => (.num p.1, p.2))
      else none
termination_by structural fuel

/-- Comma-separated array elements, positioned at the start of an element. -/
def parseElems (fuel budget : Nat) (cs : List Char) : Option (List Json × List Char) :=
  match fuel with
  | 0 => none
  | fuel + 1 =>
    match parseVal fuel budget cs with
    | none => none
    | some (v, r) =>
      match skipWs r with
      | [] => none
      | c :: r₁ =>
        if c = ',' then
          match parseElems fuel budget (skipWs r₁) with
          | some (es, r₂) => some (v :: es, r₂)
          | none => none
        else if c = ']' then some ([v], r₁)
        else none
termination_by structural fuel

/-- Comma-separated object members, positioned at the opening quote of a
key.  The members are returned in text order; the caller folds them into
the map. -/
def parseMembers (fuel budget : Nat) (cs : List Char) :
    Option (List (String × Json) × List Char) :=
  match fuel with
  | 0 => none
  | fuel + 1 =>
    match cs with
    | [] => none
    | c₀ :: t =>
      if c₀ = '"' then
        match parseStrBody [] t with
        | none => none
        | some (k, r) =>
          match skipWs r with
          | [] => none
          | c₁ :: r₁ =>
            if c₁ = ':' then
              match parseVal fuel budget (skipWs r₁) with
              | none => none
              | some (v, r₂) =>
                match skipWs r₂ with
                | [] => none
                | c₂ :: r₃ =>
                  if c₂ = ',' then
                    match parseMembers fuel budget (skipWs r₃) with
                    | some (ms, r₄) => some ((k, v) :: ms, r₄)
                    | none => none
                  else if c₂ = '\x7d' then some ([(k, v)], r₃)
                  else none
            else none
      else none
termination_by structural fuel

end

/-- serde_json's default recursion depth limit. -/
def recursionLimit : Nat := 128

/-- `serde_json::from_str::<Value>`: whitespace, one value, whitespace,
end of input.  The fuel bound `2 * length + 4` exceeds what any input can
consume (each unit of fuel spent moves past at least one character or
follows a bracket just consumed). -/
def parseJsonL (cs : List Char) : Option Json :=
  match parseVal (2 * cs.length + 4) recursionLimit (skipWs cs) with
  | some (v, r) => if skipWs r = [] then some v else none
  | none => none

/-! ## The printer: model of `serde_json::to_string` / `to_string_pretty`

Parametrised over the whitespace the formatter inserts, so that the compact
and the pretty formatter share one definition and one round-trip proof. -/

def digitChar : Nat → Char
  | 0 => '0' | 1 => '1' | 2 => '2' | 3 => '3' | 4 => '4'
  | 5 => '5' | 6 => '6' | 7 => '7' | 8 => '8' | 9 => '9'
  | _ => '0'

/-- Lowercase hex digit, as serde's escape table uses. -/
def hexDigit : Nat → Char
  | 0 => '0' | 1 => '1' | 2 => '2' | 3 => '3' | 4 => '4'
  | 5 => '5' | 6 => '6' | 7 => '7' | 8 => '8' | 9 => '9'
  | 10 => 'a' | 11 => 'b' | 12 => 'c' | 13 => 'd' | 14 => 'e' | 15 => 'f'
  | _ => '0'

def natCharsAux : Nat → Nat → List Char → List Char
  | 0, _, acc => acc
  | fuel + 1, n, acc =>
    if n < 10 then digitChar n :: acc
    else natCharsAux fuel (n / 10) (digitChar (n % 10) :: acc)

/-- Decimal digits of a natural number, most significant first (itoa).
The structural fuel `n + 1` always suffices: the value shrinks by a factor
of ten per digit. -/
def natChars (n : Nat) : List Char := natCharsAux (n + 1) n []

/-- serde's character escaping: quote, backslash, the five short control
escapes, `\u00XX` for the remaining control characters, everything else
verbatim (`/` is not escaped on output). -/
def escapeChar (c : Char) : List Char :=
  if c = '"' then ['\\', '"']
  else if c = '\\' then ['\\', '\\']
  else if c = '\x08' then ['\\', 'b']
  else if c = '\t' then ['\\', 't']
  else if c = '\n' then ['\\', 'n']
  else if c = '\x0C' then ['\\', 'f']
  else if c = '\r' then ['\\', 'r']
  else if c.toNat < 0x20 then
    ['\\', 'u', '0', '0', hexDigit (c.toNat / 16), hexDigit (c.toNat % 16)]
  else [c]

def escapeList (l : List Char) : List Char := l.flatMap escapeChar

/-- A rendered string literal, quotes included. -/
def renderStr (s : String) : List Char := '"' :: escapeList s.data ++ ['"']

/-- The fraction part: empty, or a dot followed by the fraction digits. -/
def renderFrac : Digits → List Char
  | [] => []
  | fr => '.' :: fr.map digitChar

def renderExpSign : Option Bool → List Char
  | none => []
  | some false => ['+']
  | some true => ['-']

/-- The exponent part: empty, or `e`, an optional sign, and the digits. -/
def renderExp : Option (Option Bool × Digits) → List Char
  | none => []
  | some (sg, ds) => 'e' :: renderExpSign sg ++ ds.map digitChar

/-- Rendering of a number.  `uint`/`int` follow itoa exactly; a float is
printed from its stored decimal components (serde prints the shortest ryu
form of the `f64`; the claims under study never depend on that
re-normalisation, only on round-tripping, which both satisfy). -/
def renderNum : JNum → List Char
  | .uint n => natChars n
  | .int n => '-' :: natChars n.natAbs
  | .float neg ip fr ex =>
    (if neg then ['-'] else []) ++ natChars ip ++ renderFrac fr ++ renderExp ex

/-- The whitespace a formatter inserts: after an opening bracket, after a
separating comma, before a closing bracket, and after a key's colon.  The
first three depend on the nesting depth (for indentation). -/
structure Layout where
  openWs : Nat → List Char
  sepWs : Nat → List Char
  closeWs : Nat → List Char
  colonWs : List Char

/-- `CompactFormatter`: no inserted whitespace. -/
def compactL : Layout := ⟨fun _ => [], fun _ => [], fun _ => [], []⟩

def indentChars (d : Nat) : List Char := List.replicate (2 * d) ' '

/-- `PrettyFormatter` with its default two-space indent. -/
def prettyL : Layout :=
  ⟨fun d => '\n' :: indentChars d, fun d => '\n' :: indentChars d,
   fun d => '\n' :: indentChars d, [' ']⟩

mutual

/-- Rendering one value at nesting depth `d` under layout `L`. -/
def renderVal (L : Layout) (d : Nat) : Json → List Char
  | .null => ['n', 'u', 'l', 'l']
  | .bool b => if b then ['t', 'r', 'u', 'e'] else ['f', 'a', 'l', 's', 'e']
  | .num n => renderNum n
  | .str s => renderStr s
  | .arr [] => ['[', ']']
  | .arr (e :: es) =>
    '[' :: L.openWs (d + 1) ++ renderVal L (d + 1) e ++ renderElemsTail L (d + 1) es ++
      L.closeWs d ++ [']']
  | .obj [] => ['\x7b', '\x7d']
  | .obj ((k, v) :: ms) =>
    '\x7b' :: L.openWs (d + 1) ++ renderStr k ++ ':' :: L.colonWs ++
      renderVal L (d + 1) v ++ renderMembersTail L (d + 1) ms ++ L.closeWs d ++ ['\x7d']

def renderElemsTail (L : Layout) (d : Nat) : List Json → List Char
  | [] => []
  | e :: es => ',' :: L.sepWs d ++ renderVal L d e ++ renderElemsTail L d es

def renderMembersTail (L : Layout) (d : Nat) : List (String × Json) → List Char
  | [] => []
  | (k, v) :: ms =>
    ',' :: L.sepWs d ++ renderStr k ++ ':' :: L.colonWs ++ renderVal L d v ++
      renderMembersTail L d ms

end

/-- `serde_json::to_string` on a `Value`. -/
def toStringL (v : Json) : List Char := renderVal compactL 0 v

/-- `serde_json::to_string_pretty` on a `Value`. -/
def toStringPrettyL (v : Json) : List Char := renderVal prettyL 0 v

/-! ## Well-formed values and nesting depth

`wf` is exactly the invariant every in-memory `serde_json::Value` enjoys:
numbers within their representation's ranges (or the overflow forms the
integer parser's float fallback produces), fraction and exponent digit
lists made of digits and nonempty where present, and object keys strictly
sorted (a `BTreeMap`).  `depth` counts nested containers, the quantity
serde's recursion limit bounds. -/

def wfNum : JNum → Bool
  | .uint n => decide (n < 2 ^ 64)
  | .int n => decide (-(2 ^ 63) ≤ n) && decide (n < 0)
  | .float neg ip fr ex =>
    fr.all (fun d => decide (d < 10)) &&
    (match ex with
     | none => true
     | some (_, ds) => !ds.isEmpty && ds.all (fun d => decide (d < 10))) &&
    (!fr.isEmpty || ex.isSome ||
      (if neg then decide (2 ^ 63 < ip) else decide (2 ^ 64 ≤ ip)))

def keysSorted : List (String × Json) → Bool
  | [] => true
  | [_] => true
  | (k₁, _) :: (k₂, v₂) :: t => Json.keyLt k₁ k₂ && keysSorted ((k₂, v₂) :: t)

mutual

def wf : Json → Bool
  | .null => true
  | .bool _ => true
  | .str _ => true
  | .num n => wfNum n
  | .arr es => wfElems es
  | .obj fs => keysSorted fs && wfFields fs

def wfElems : List Json → Bool
  | [] => true
  | e :: es => wf e && wfElems es

def wfFields : List (String × Json) → Bool
  | [] => true
  | (_, v) :: ms => wf v && wfFields ms

end

mutual

def jdepth : Json → Nat
  | .arr es => 1 + depthElems es
  | .obj fs => 1 + depthFields fs
  | _ => 0

def depthElems : List Json → Nat
  | [] => 0
  | e :: es => max (jdepth e) (depthElems es)

def depthFields : List (String × Json) → Nat
  | [] => 0
  | (_, v) :: ms => max (jdepth v) (depthFields ms)

end

/-! ## Round-trip groundwork: digits and integer literals -/

theorem digitChar_isDigit {d : Nat} (h : d < 10) : isDigit (digitChar d) = true := by
  interval_cases d <;> decide

theorem digitVal_digitChar {d : Nat} (h : d < 10) : digitVal (digitChar d) = d := by
  interval_cases d <;> decide

theorem map_digitVal_digitChar (ds : Digits) (h : ∀ d ∈ ds, d < 10) :
    (ds.map digitChar).map digitVal = ds := by
  induction ds with
  | nil => rfl
  | cons d ds ih =>
    simp only [List.map_cons, List.cons.injEq]
    exact ⟨digitVal_digitChar (h d (by simp)), ih fun x hx => h x (by simp [hx])⟩

theorem natCharsAux_irrel (n : Nat) : ∀ (f₁ f₂ : Nat) (acc : List Char),
    n < f₁ → n < f₂ → natCharsAux f₁ n acc = natCharsAux f₂ n acc := by
  induction n using Nat.strong_induction_on with
  | _ n ih =>
    intro f₁ f₂ acc h₁ h₂
    match f₁, f₂ with
    | g₁ + 1, g₂ + 1 =>
      simp only [natCharsAux]
      by_cases h10 : n < 10
      · simp [h10]
      · have hd : n / 10 < n := Nat.div_lt_self (by omega) (by omega)
        simp only [h10, if_false]
        exact ih (n / 10) hd g₁ g₂ _ (by omega) (by omega)

theorem natCharsAux_acc (n : Nat) : ∀ (f : Nat) (acc : List Char), n < f →
    natCharsAux f n acc = natChars n ++ acc := by
  induction n using Nat.strong_induction_on with
  | _ n ih =>
    intro f acc hf
    match f with
    | g + 1 =>
      by_cases h10 : n < 10
      · simp [natCharsAux, natChars, h10]
      · have hd : n / 10 < n := Nat.div_lt_self (by omega) (by omega)
        simp only [natCharsAux, h10, if_false, natChars]
        rw [ih (n / 10) hd g _ (by omega), ih (n / 10) hd n _ (by omega),
          List.append_assoc]
        rfl

theorem natChars_unfold (n : Nat) :
    natChars n = if n < 10 then [digitChar n] else natChars (n / 10) ++ [digitChar (n % 10)] := by
  by_cases h10 : n < 10
  · simp [natChars, natCharsAux, h10]
  · have hd : n / 10 < n := Nat.div_lt_self (by omega) (by omega)
    simp only [natChars, natCharsAux, h10, if_false]
    exact natCharsAux_acc (n / 10) n _ (by omega)

theorem natChars_ne_nil (n : Nat) : natChars n ≠ [] := by
  rw [natChars_unfold]
  split
  · simp
  · simp

theorem natChars_digits (n : Nat) : ∀ c ∈ natChars n, isDigit c = true := by
  induction n using Nat.strong_induction_on with
  | _ n ih =>
    intro c hc
    rw [natChars_unfold] at hc
    by_cases h10 : n < 10
    · rw [if_pos h10] at hc
      simp at hc
      subst hc
      exact digitChar_isDigit h10
    · have hd : n / 10 < n := Nat.div_lt_self (by omega) (by omega)
      rw [if_neg h10] at hc
      rcases List.mem_append.mp hc with hmem | hmem
      · exact ih (n / 10) hd c hmem
      · simp at hmem
        subst hmem
        exact digitChar_isDigit (Nat.mod_lt n (by omega))

theorem natChars_head_ne_zero (n : Nat) (hn : 1 ≤ n) :
    ∀ c t, natChars n = c :: t → c ≠ '0' := by
  induction n using Nat.strong_induction_on with
  | _ n ih =>
    intro c t hct
    rw [natChars_unfold] at hct
    by_cases h10 : n < 10
    · rw [if_pos h10] at hct
      cases hct
      interval_cases n <;> decide
    · have hd : n / 10 < n := Nat.div_lt_self (by omega) (by omega)
      rw [if_neg h10] at hct
      obtain ⟨c', t', hmain⟩ : ∃ c' t', natChars (n / 10) = c' :: t' := by
        cases hm : natChars (n / 10) with
        | nil => exact absurd hm (natChars_ne_nil _)
        | cons a b => exact ⟨a, b, rfl⟩
      rw [hmain] at hct
      simp only [List.cons_append, List.cons.injEq] at hct
      rw [← hct.1]
      exact ih (n / 10) hd (by omega) c' t' hmain

theorem digitsVal_snoc (ds : Digits) (d : Nat) :
    digitsVal (ds ++ [d]) = 10 * digitsVal ds + d := by
  simp [digitsVal, List.foldl_append]
  omega

theorem digitsVal_natChars (n : Nat) : digitsVal ((natChars n).map digitVal) = n := by
  induction n using Nat.strong_induction_on with
  | _ n ih =>
    rw [natChars_unfold]
    by_cases h10 : n < 10
    · rw [if_pos h10]
      simp [digitsVal, digitVal_digitChar h10]
    · have hd : n / 10 < n := Nat.div_lt_self (by omega) (by omega)
      rw [if_neg h10, List.map_append, List.map_singleton,
        digitVal_digitChar (Nat.mod_lt n (by omega)), digitsVal_snoc, ih (n / 10) hd]
      omega

/-- The remainder cannot begin with a digit. -/
def nonDigitStart (cs : List Char) : Bool :=
  match cs with
  | [] => true
  | c :: _ => !isDigit c

/-- The remainder cannot extend a number literal: no digit, dot, or
exponent letter at its head. -/
def numDelim (cs : List Char) : Bool :=
  match cs with
  | [] => true
  | c :: _ => !(isDigit c || c = '.' || c = 'e' || c = 'E')

theorem nonDigitStart_of_numDelim (cs : List Char) (h : numDelim cs = true) :
    nonDigitStart cs = true := by
  cases cs with
  | nil => rfl
  | cons c t =>
    simp [numDelim] at h
    simp [nonDigitStart, h.1]

theorem takeDigits_append (ds : List Char) (h : ∀ c ∈ ds, isDigit c = true) :
    ∀ rest, nonDigitStart rest = true →
      takeDigits (ds ++ rest) = (ds.map digitVal, rest) := by
  induction ds with
  | nil =>
    intro rest hr
    cases rest with
    | nil => rfl
    | cons c t =>
      simp [nonDigitStart] at hr
      simp [takeDigits, hr]
  | cons d ds ih =>
    intro rest hr
    have hd : isDigit d = true := h d (by simp)
    simp only [List.cons_append, takeDigits, hd, if_true]
    rw [show ds.append rest = ds ++ rest from rfl,
      ih (fun c hc => h c (by simp [hc])) rest hr]
    simp

theorem isDigit_ne {c x : Char} (h : isDigit c = true)
    (hx : x.toNat < 48 ∨ 57 < x.toNat) : c ≠ x := by
  intro he
  subst he
  simp [isDigit] at h
  omega

theorem numDelim_head {c : Char} {t : List Char} (hnd : numDelim (c :: t) = true) :
    isDigit c = false ∧ c ≠ '.' ∧ c ≠ 'e' ∧ c ≠ 'E' := by
  have hb : (isDigit c || decide (c = '.') || decide (c = 'e') || decide (c = 'E'))
      = false := by
    have hx : numDelim (c :: t)
        = !(isDigit c || decide (c = '.') || decide (c = 'e') || decide (c = 'E')) := rfl
    rw [hx, Bool.not_eq_true'] at hnd
    exact hnd
  simp only [Bool.or_eq_false_iff, decide_eq_false_iff_not] at hb
  exact ⟨hb.1.1.1, hb.1.1.2, hb.1.2, hb.2⟩

theorem numAfterInt_delim (neg : Bool) (ip : Nat) (rest : List Char)
    (hr : numDelim rest = true) :
    numAfterInt neg ip rest = some (numClassify neg ip, rest) := by
  cases rest with
  | nil => rfl
  | cons c t =>
    obtain ⟨hd, hdot, he, hE⟩ := numDelim_head hr
    simp [numAfterInt, hdot, he, hE]

theorem numExp_parts (neg : Bool) (ip : Nat) (fr : Digits) (sg : Option Bool)
    (ds : Digits) (hds : ds ≠ []) (hlt : ∀ d ∈ ds, d < 10) (rest : List Char)
    (hr : numDelim rest = true) :
    numExp neg ip fr (renderExpSign sg ++ ds.map digitChar ++ rest)
      = some (.float neg ip fr (some (sg, ds)), rest) := by
  have hdig : ∀ c ∈ ds.map digitChar, isDigit c = true := by
    intro c hc
    obtain ⟨d, hd, rfl⟩ := List.mem_map.mp hc
    exact digitChar_isDigit (hlt d hd)
  have htd : takeDigits (ds.map digitChar ++ rest) = (ds, rest) := by
    rw [takeDigits_append _ hdig rest (nonDigitStart_of_numDelim rest hr),
      map_digitVal_digitChar ds hlt]
  obtain ⟨d₀, ds', rfl⟩ : ∃ d₀ ds', ds = d₀ :: ds' := by
    cases ds with
    | nil => exact absurd rfl hds
    | cons a b => exact ⟨a, b, rfl⟩
  have htd' := htd
  simp only [List.map_cons, List.cons_append, List.append_assoc] at htd'
  cases sg with
  | none =>
    have hc₀ : isDigit (digitChar d₀) = true := digitChar_isDigit (hlt d₀ (by simp))
    simp only [renderExpSign, List.nil_append, List.map_cons, List.cons_append, numExp]
    rw [if_neg (isDigit_ne hc₀ (by decide)), if_neg (isDigit_ne hc₀ (by decide))]
    simp only [numExpDigits, ← List.cons_append, ← List.map_cons]
    rw [htd]
    simp
  | some b =>
    cases b with
    | false =>
      simp only [renderExpSign, List.cons_append, List.nil_append, numExp]
      rw [if_pos trivial]
      simp only [numExpDigits, List.map_cons, List.cons_append, List.append_assoc,
        List.nil_append]
      rw [htd']
      simp
    | true =>
      simp only [renderExpSign, List.cons_append, List.nil_append, numExp]
      rw [if_pos trivial]
      simp only [numExpDigits, List.map_cons, List.cons_append, List.append_assoc,
        List.nil_append]
      rw [htd']
      simp

theorem numAfterInt_parts (neg : Bool) (ip : Nat) (fr : Digits)
    (ex : Option (Option Bool × Digits))
    (hfr : ∀ d ∈ fr, d < 10)
    (hex : ∀ sg ds, ex = some (sg, ds) → ds ≠ [] ∧ ∀ d ∈ ds, d < 10)
    (hover : fr = [] → ex = none →
      numClassify neg ip = .float neg ip [] none)
    (rest : List Char) (hr : numDelim rest = true) :
    numAfterInt neg ip (renderFrac fr ++ renderExp ex ++ rest)
      = some (.float neg ip fr ex, rest) := by
  cases fr with
  | cons f fr' =>
    have hdig : ∀ c ∈ (f :: fr').map digitChar, isDigit c = true := by
      intro c hc
      obtain ⟨d, hd, rfl⟩ := List.mem_map.mp hc
      exact digitChar_isDigit (hfr d hd)
    have hnd : nonDigitStart (renderExp ex ++ rest) = true := by
      cases ex with
      | none => exact nonDigitStart_of_numDelim rest hr
      | some p => obtain ⟨sg, ds⟩ := p; rfl
    have htd : takeDigits ((f :: fr').map digitChar ++ (renderExp ex ++ rest))
        = (f :: fr', renderExp ex ++ rest) := by
      rw [takeDigits_append _ hdig _ hnd, map_digitVal_digitChar _ hfr]
    have htd' := htd
    simp only [List.map_cons, List.cons_append, List.append_assoc] at htd'
    rw [show renderFrac (f :: fr') = '.' :: (f :: fr').map digitChar from rfl]
    simp only [List.map_cons, List.cons_append, List.append_assoc, numAfterInt, if_pos rfl]
    rw [htd']
    simp only [List.isEmpty_cons, Bool.false_eq_true, if_false]
    cases ex with
    | none =>
      cases rest with
      | nil => simp [renderExp]
      | cons c₂ t₂ =>
        obtain ⟨_, _, he, hE⟩ := numDelim_head hr
        simp [renderExp, he, hE]
    | some p =>
      obtain ⟨sg, ds⟩ := p
      obtain ⟨hne, hlt⟩ := hex sg ds rfl
      simp only [renderExp, List.cons_append]
      rw [if_pos trivial, if_pos (Or.inl trivial)]
      exact numExp_parts neg ip (f :: fr') sg ds hne hlt rest hr
  | nil =>
    simp only [renderFrac, List.nil_append]
    cases ex with
    | some p =>
      obtain ⟨sg, ds⟩ := p
      obtain ⟨hne, hlt⟩ := hex sg ds rfl
      simp only [renderExp, List.cons_append, numAfterInt]
      rw [if_neg (by decide), if_pos (Or.inl trivial)]
      exact numExp_parts neg ip [] sg ds hne hlt rest hr
    | none =>
      simp only [renderExp, List.nil_append]
      rw [numAfterInt_delim neg ip rest hr, hover rfl rfl]

theorem parseNumBody_natChars (neg : Bool) (n : Nat) (rest : List Char)
    (hnd : nonDigitStart rest = true) :
    parseNumBody neg (natChars n ++ rest) = numAfterInt neg n rest := by
  by_cases hn : n = 0
  · subst hn
    have h0 : natChars 0 = ['0'] := rfl
    rw [h0]
    cases rest with
    | nil => simp [parseNumBody]
    | cons c t =>
      simp [nonDigitStart] at hnd
      simp [parseNumBody, hnd]
  · obtain ⟨c, t, hct⟩ : ∃ c t, natChars n = c :: t := by
      cases hm : natChars n with
      | nil => exact absurd hm (natChars_ne_nil _)
      | cons a b => exact ⟨a, b, rfl⟩
    have hcd : isDigit c = true := natChars_digits n c (by rw [hct]; simp)
    have hc0 : c ≠ '0' := natChars_head_ne_zero n (by omega) c t hct
    have htd : takeDigits (t ++ rest) = (t.map digitVal, rest) := by
      refine takeDigits_append t (fun x hx => natChars_digits n x ?_) rest hnd
      rw [hct]; simp [hx]
    rw [hct]
    simp only [List.cons_append, parseNumBody, if_neg hc0, hcd, if_true]
    rw [htd]
    have hval : digitsVal (digitVal c :: t.map digitVal) = n := by
      have := digitsVal_natChars n
      rw [hct] at this
      simpa using this
    simp [hval]

/-- The number round trip: a well-formed number, rendered and followed by
text that cannot extend a number literal, parses back to itself. -/
theorem parseNum_renderNum (n : JNum) (hwf : wfNum n = true) (rest : List Char)
    (hr : numDelim rest = true) :
    parseNum (renderNum n ++ rest) = some (n, rest) := by
  cases n with
  | uint m =>
    simp only [wfNum, decide_eq_true_eq] at hwf
    obtain ⟨c, t, hct⟩ : ∃ c t, natChars m = c :: t := by
      cases hm : natChars m with
      | nil => exact absurd hm (natChars_ne_nil _)
      | cons a b => exact ⟨a, b, rfl⟩
    have hcd : isDigit c = true := natChars_digits m c (by rw [hct]; simp)
    simp only [renderNum, hct, List.cons_append, parseNum]
    rw [if_neg (isDigit_ne hcd (by decide)), ← List.cons_append, ← hct,
      parseNumBody_natChars false m rest (nonDigitStart_of_numDelim rest hr),
      numAfterInt_delim false m rest hr]
    simp only [numClassify, Bool.false_eq_true, if_false]
    rw [if_pos hwf]
  | int m =>
    simp only [wfNum, Bool.and_eq_true, decide_eq_true_eq] at hwf
    simp only [renderNum, List.cons_append, parseNum, if_pos rfl]
    rw [parseNumBody_natChars true m.natAbs rest (nonDigitStart_of_numDelim rest hr),
      numAfterInt_delim true m.natAbs rest hr]
    have hpos : ¬(m.natAbs = 0) := by omega
    have hle : m.natAbs ≤ 2 ^ 63 := by omega
    simp only [numClassify, if_pos rfl, hpos, if_false, if_pos hle]
    have hm : -(m.natAbs : Int) = m := by omega
    rw [hm]
    simp
  | float fneg ip fr ex =>
    simp only [wfNum, Bool.and_eq_true, Bool.or_eq_true, List.all_eq_true,
      decide_eq_true_eq] at hwf
    obtain ⟨⟨hfr, hexd⟩, hform⟩ := hwf
    have hex : ∀ sg ds, ex = some (sg, ds) → ds ≠ [] ∧ ∀ d ∈ ds, d < 10 := by
      intro sg ds hexx
      rw [hexx] at hexd
      simp at hexd
      exact ⟨by cases ds <;> simp_all, fun d hd => hexd.2 d hd⟩
    have hover : fr = [] → ex = none → numClassify fneg ip = .float fneg ip [] none := by
      intro h1 h2
      subst h1
      rw [h2] at hform
      cases fneg with
      | true =>
        simp at hform
        have h0 : ¬(ip = 0) := by omega
        have h63 : ¬(ip ≤ 2 ^ 63) := by omega
        simp [numClassify, h0, h63, hform]
      | false =>
        simp at hform
        have h64 : ¬(ip < 2 ^ 64) := by omega
        simp [numClassify, h64, hform]
    have hparts : nonDigitStart (renderFrac fr ++ renderExp ex ++ rest) = true := by
      cases fr with
      | cons f fr' => rfl
      | nil =>
        simp only [renderFrac, List.nil_append]
        cases ex with
        | some p => obtain ⟨sg, ds⟩ := p; rfl
        | none => exact nonDigitStart_of_numDelim rest hr
    have hbody : parseNumBody fneg (natChars ip ++ (renderFrac fr ++ renderExp ex ++ rest))
        = some (.float fneg ip fr ex, rest) := by
      rw [parseNumBody_natChars fneg ip _ hparts,
        numAfterInt_parts fneg ip fr ex (fun d hd => hfr d hd) hex hover rest hr]
    have hbody' := hbody
    simp only [List.append_assoc] at hbody'
    cases fneg with
    | true =>
      have hren : renderNum (.float true ip fr ex)
          = '-' :: (natChars ip ++ renderFrac fr ++ renderExp ex) := by
        simp [renderNum]
      rw [hren, List.cons_append]
      simp only [parseNum, if_pos rfl, List.append_assoc]
      exact hbody'
    | false =>
      obtain ⟨c, t, hct⟩ : ∃ c t, natChars ip = c :: t := by
        cases hm : natChars ip with
        | nil => exact absurd hm (natChars_ne_nil _)
        | cons a b => exact ⟨a, b, rfl⟩
      have hcd : isDigit c = true := natChars_digits ip c (by rw [hct]; simp)
      have hren : renderNum (.float false ip fr ex)
          = natChars ip ++ renderFrac fr ++ renderExp ex := by
        simp [renderNum]
      rw [hren]
      rw [show (natChars ip ++ renderFrac fr ++ renderExp ex) ++ rest
          = c :: (t ++ (renderFrac fr ++ (renderExp ex ++ rest))) by
            rw [hct]; simp [List.append_assoc]]
      simp only [parseNum]
      rw [if_neg (isDigit_ne hcd (by decide))]
      rw [show c :: (t ++ (renderFrac fr ++ (renderExp ex ++ rest)))
          = natChars ip ++ (renderFrac fr ++ (renderExp ex ++ rest)) by
            rw [hct]; simp]
      exact hbody'


/-! ## Round-trip groundwork: string escaping -/

theorem hexVal_hexDigit {k : Nat} (h : k < 16) : hexVal (hexDigit k) = some k := by
  interval_cases k <;> decide

/-- One escaped character parses back to that character: serde's escape
table and its string parser are mutually inverse, one character at a
time. -/
theorem parseStrBody_escapeChar (c : Char) (acc X : List Char) :
    parseStrBody acc (escapeChar c ++ X) = parseStrBody (c :: acc) X := by
  by_cases hq : c = '"'
  · subst hq; rfl
  by_cases hb : c = '\\'
  · subst hb; rfl
  by_cases h8 : c = '\x08'
  · subst h8; rfl
  by_cases ht : c = '\t'
  · subst ht; rfl
  by_cases hn : c = '\n'
  · subst hn; rfl
  by_cases hf : c = '\x0C'
  · subst hf; rfl
  by_cases hrr : c = '\r'
  · subst hrr; rfl
  by_cases hctl : c.toNat < 0x20
  · obtain ⟨t, htlt, hct⟩ : ∃ t, t < 32 ∧ c = Char.ofNat t :=
      ⟨c.toNat, hctl, (Char.ofNat_toNat c).symm⟩
    subst hct
    interval_cases t <;> rfl
  · have hesc : escapeChar c = [c] := by
      simp only [escapeChar, if_neg hq, if_neg hb, if_neg h8, if_neg ht, if_neg hn,
        if_neg hf, if_neg hrr, if_neg hctl]
    rw [hesc,
      show ([c] : List Char) ++ X = c :: X from rfl,
      show parseStrBody acc (c :: X) = if c = '"' then some (String.mk acc.reverse, X)
        else if c = '\\' then parseStrEscape acc X
        else if c.toNat < 0x20 then none
        else parseStrBody (c :: acc) X from rfl,
      if_neg hq, if_neg hb, if_neg hctl]

/-- The string round trip: an escaped character list followed by the
closing quote parses back to the original characters. -/
theorem parseStrBody_escape :
    ∀ (l acc rest : List Char),
      parseStrBody acc (escapeList l ++ '"' :: rest)
        = some (String.mk (acc.reverse ++ l), rest) := by
  intro l
  induction l with
  | nil =>
    intro acc rest
    rw [show escapeList [] ++ '"' :: rest = '"' :: rest by simp [escapeList],
      show parseStrBody acc ('"' :: rest) = some (String.mk acc.reverse, rest) from rfl]
    simp
  | cons c l ih =>
    intro acc rest
    rw [show escapeList (c :: l) ++ '"' :: rest
        = escapeChar c ++ (escapeList l ++ '"' :: rest) by simp [escapeList],
      parseStrBody_escapeChar c acc (escapeList l ++ '"' :: rest),
      ih (c :: acc) rest]
    simp

/-! ## Round-trip groundwork: whitespace, layouts, heads, sorted maps -/

theorem skipWs_ws_append (w : List Char) (hw : ∀ c ∈ w, isWs c = true) :
    ∀ cs, skipWs (w ++ cs) = skipWs cs := by
  induction w with
  | nil => intro cs; rfl
  | cons c t ih =>
    intro cs
    rw [List.cons_append,
      show skipWs (c :: (t ++ cs)) = if isWs c then skipWs (t ++ cs) else c :: (t ++ cs)
        from rfl,
      if_pos (hw c (by simp)), ih (fun x hx => hw x (by simp [hx])) cs]

theorem skipWs_not_ws {c : Char} (t : List Char) (h : isWs c = false) :
    skipWs (c :: t) = c :: t := by
  rw [show skipWs (c :: t) = if isWs c then skipWs t else c :: t from rfl, h]
  simp

/-- A layout that inserts only whitespace (true of both serde
formatters). -/
def LayoutWs (L : Layout) : Prop :=
  (∀ d, ∀ c ∈ L.openWs d, isWs c = true) ∧
  (∀ d, ∀ c ∈ L.sepWs d, isWs c = true) ∧
  (∀ d, ∀ c ∈ L.closeWs d, isWs c = true) ∧
  (∀ c ∈ L.colonWs, isWs c = true)

theorem compactL_ws : LayoutWs compactL := by
  refine ⟨?_, ?_, ?_, ?_⟩ <;> simp [compactL]

theorem prettyL_ws : LayoutWs prettyL := by
  have hind : ∀ d, ∀ c ∈ indentChars d, isWs c = true := by
    intro d c hc
    rw [List.eq_of_mem_replicate hc]
    decide
  refine ⟨?_, ?_, ?_, ?_⟩
  · intro d c hc
    rcases List.mem_cons.mp hc with rfl | hc
    · decide
    · exact hind d c hc
  · intro d c hc
    rcases List.mem_cons.mp hc with rfl | hc
    · decide
    · exact hind d c hc
  · intro d c hc
    rcases List.mem_cons.mp hc with rfl | hc
    · decide
    · exact hind d c hc
  · intro c hc
    rcases List.mem_cons.mp hc with rfl | hc
    · decide
    · simp at hc

theorem isDigit_not_ws {c : Char} (h : isDigit c = true) : isWs c = false := by
  cases hc : isWs c
  · rfl
  · simp only [isWs, Bool.or_eq_true, beq_iff_eq] at hc
    rcases hc with ((hc | hc) | hc) | hc <;> subst hc <;> exact absurd h (by decide)

/-- The first character a rendered value can start with: never whitespace
and never a closing bracket, so the parser positioned before a value is
not confused by it. -/
theorem renderVal_head (L : Layout) (d : Nat) (v : Json) :
    ∃ c t, renderVal L d v = c :: t ∧ isWs c = false ∧ c ≠ ']' ∧ c ≠ '\x7d' := by
  cases v with
  | null => refine ⟨'n', _, rfl, ?_, ?_, ?_⟩ <;> decide
  | bool b => cases b with
    | true => refine ⟨'t', _, rfl, ?_, ?_, ?_⟩ <;> decide
    | false => refine ⟨'f', _, rfl, ?_, ?_, ?_⟩ <;> decide
  | str s => refine ⟨'"', _, rfl, ?_, ?_, ?_⟩ <;> decide
  | arr es => cases es with
    | nil => refine ⟨'[', _, rfl, ?_, ?_, ?_⟩ <;> decide
    | cons e es => refine ⟨'[', _, rfl, ?_, ?_, ?_⟩ <;> decide
  | obj fs => cases fs with
    | nil => refine ⟨'\x7b', _, rfl, ?_, ?_, ?_⟩ <;> decide
    | cons m ms =>
      obtain ⟨k, v⟩ := m
      refine ⟨'\x7b', _, rfl, ?_, ?_, ?_⟩ <;> decide
  | num n =>
    have hdig : ∀ m : Nat, ∃ c t, natChars m = c :: t ∧ isWs c = false ∧
        c ≠ ']' ∧ c ≠ '\x7d' := by
      intro m
      obtain ⟨c, t, hct⟩ : ∃ c t, natChars m = c :: t := by
        cases hm : natChars m with
        | nil => exact absurd hm (natChars_ne_nil _)
        | cons a b => exact ⟨a, b, rfl⟩
      have hcd : isDigit c = true := natChars_digits m c (by rw [hct]; simp)
      exact ⟨c, t, hct, isDigit_not_ws hcd, isDigit_ne hcd (by decide),
        isDigit_ne hcd (by decide)⟩
    cases n with
    | uint m =>
      obtain ⟨c, t, hct, h1, h2, h3⟩ := hdig m
      exact ⟨c, t,
        by rw [show renderVal L d (.num (.uint m)) = natChars m from rfl, hct], h1, h2, h3⟩
    | int m =>
      exact ⟨'-', natChars m.natAbs, rfl, by decide, by decide, by decide⟩
    | float neg ip fr ex =>
      cases neg with
      | true =>
        exact ⟨'-', natChars ip ++ renderFrac fr ++ renderExp ex, rfl,
          by decide, by decide, by decide⟩
      | false =>
        obtain ⟨c, t, hct, h1, h2, h3⟩ := hdig ip
        refine ⟨c, t ++ renderFrac fr ++ renderExp ex, ?_, h1, h2, h3⟩
        rw [show renderVal L d (.num (.float false ip fr ex))
          = natChars ip ++ renderFrac fr ++ renderExp ex from rfl, hct]
        rfl

/-- `skipWs` does not eat into a rendered value. -/
theorem skipWs_renderVal (L : Layout) (d : Nat) (v : Json) (rest : List Char) :
    skipWs (renderVal L d v ++ rest) = renderVal L d v ++ rest := by
  obtain ⟨c, t, hct, h1, _, _⟩ := renderVal_head L d v
  rw [hct, List.cons_append, skipWs_not_ws _ h1]

theorem charsLt_irrefl : ∀ l : List Char, Json.charsLt l l = false := by
  intro l
  induction l with
  | nil => rfl
  | cons c t ih => simp [Json.charsLt, ih]

theorem charsLt_asymm : ∀ a b : List Char,
    Json.charsLt a b = true → Json.charsLt b a = false := by
  intro a
  induction a with
  | nil => intro b h; cases b <;> simp [Json.charsLt] at h ⊢
  | cons c t ih =>
    intro b h
    cases b with
    | nil => simp [Json.charsLt] at h
    | cons c₁ t₁ =>
      simp only [Json.charsLt] at h ⊢
      by_cases h1 : c.toNat < c₁.toNat
      · rw [if_neg (show ¬c₁.toNat < c.toNat by omega), if_pos h1]
      · by_cases h2 : c₁.toNat < c.toNat
        · rw [if_neg h1, if_pos h2] at h
          cases h
        · rw [if_neg h1, if_neg h2] at h
          rw [if_neg h2, if_neg h1]
          exact ih t₁ h

theorem charsLt_trans : ∀ a b c : List Char, Json.charsLt a b = true →
    Json.charsLt b c = true → Json.charsLt a c = true := by
  intro a
  induction a with
  | nil =>
    intro b c hab hbc
    cases b with
    | nil => simp [Json.charsLt] at hab
    | cons cb tb =>
      cases c with
      | nil => simp [Json.charsLt] at hbc
      | cons cc tc => rfl
  | cons ca ta ih =>
    intro b c hab hbc
    cases b with
    | nil => simp [Json.charsLt] at hab
    | cons cb tb =>
      cases c with
      | nil => simp [Json.charsLt] at hbc
      | cons cc tc =>
        simp only [Json.charsLt] at hab hbc ⊢
        by_cases h1 : ca.toNat < cb.toNat
        · by_cases h2 : cb.toNat < cc.toNat
          · rw [if_pos (show ca.toNat < cc.toNat by omega)]
          · by_cases h2r : cc.toNat < cb.toNat
            · rw [if_neg h2, if_pos h2r] at hbc
              cases hbc
            · rw [if_pos (show ca.toNat < cc.toNat by omega)]
        · by_cases h1r : cb.toNat < ca.toNat
          · rw [if_neg h1, if_pos h1r] at hab
            cases hab
          · rw [if_neg h1, if_neg h1r] at hab
            by_cases h2 : cb.toNat < cc.toNat
            · rw [if_pos (show ca.toNat < cc.toNat by omega)]
            · by_cases h2r : cc.toNat < cb.toNat
              · rw [if_neg h2, if_pos h2r] at hbc
                cases hbc
              · rw [if_neg h2, if_neg h2r] at hbc
                rw [if_neg (show ¬ca.toNat < cc.toNat by omega),
                  if_neg (show ¬cc.toNat < ca.toNat by omega)]
                exact ih tb tc hab hbc

theorem keyLt_asymm {a b : String} (h : Json.keyLt a b = true) :
    Json.keyLt b a = false := charsLt_asymm a.data b.data h

theorem keyLt_trans {a b c : String} (h₁ : Json.keyLt a b = true)
    (h₂ : Json.keyLt b c = true) : Json.keyLt a c = true :=
  charsLt_trans a.data b.data c.data h₁ h₂

theorem keyLt_ne {a b : String} (h : Json.keyLt a b = true) : a ≠ b := by
  intro he
  subst he
  rw [Json.keyLt, charsLt_irrefl] at h
  cases h

theorem insertSorted_append (k : String) (v : Json) :
    ∀ fs, (∀ p ∈ fs, Json.keyLt p.1 k = true) →
      Json.insertSorted k v fs = fs ++ [(k, v)] := by
  intro fs
  induction fs with
  | nil => intro _; rfl
  | cons p fs ih =>
    intro h
    obtain ⟨k₁, v₁⟩ := p
    have h₁ : Json.keyLt k₁ k = true := h (k₁, v₁) (by simp)
    simp only [Json.insertSorted]
    rw [if_neg (by rw [keyLt_asymm h₁]; simp),
      if_neg (fun he => keyLt_ne h₁ he.symm),
      ih (fun q hq => h q (by simp [hq]))]
    simp

theorem keysSorted_tail {p : String × Json} {fs : List (String × Json)}
    (h : keysSorted (p :: fs) = true) : keysSorted fs = true := by
  obtain ⟨k, v⟩ := p
  cases fs with
  | nil => rfl
  | cons q fs =>
    obtain ⟨k₁, v₁⟩ := q
    simp only [keysSorted, Bool.and_eq_true] at h
    exact h.2

theorem keysSorted_head_lt {k : String} {v : Json} {fs : List (String × Json)}
    (h : keysSorted ((k, v) :: fs) = true) :
    ∀ p ∈ fs, Json.keyLt k p.1 = true := by
  induction fs generalizing k v with
  | nil => intro p hp; simp at hp
  | cons q fs ih =>
    obtain ⟨k₁, v₁⟩ := q
    intro p hp
    have hk : Json.keyLt k k₁ = true := by
      simp only [keysSorted, Bool.and_eq_true] at h
      exact h.1
    rcases List.mem_cons.mp hp with hp | hp
    · rw [hp]
      exact hk
    · exact keyLt_trans hk (ih (keysSorted_tail h) p hp)

theorem foldl_insertSorted (fs : List (String × Json)) :
    ∀ acc, keysSorted fs = true →
      (∀ p ∈ fs, ∀ q ∈ acc, Json.keyLt q.1 p.1 = true) →
      fs.foldl (fun m p => Json.insertSorted p.1 p.2 m) acc = acc ++ fs := by
  induction fs with
  | nil => intro acc _ _; simp
  | cons p fs ih =>
    intro acc hs hcross
    obtain ⟨k, v⟩ := p
    simp only [List.foldl_cons]
    rw [insertSorted_append k v acc (hcross (k, v) (by simp)),
      ih (acc ++ [(k, v)]) (keysSorted_tail hs) ?_]
    · simp
    · intro q hq r hr
      rcases List.mem_append.mp hr with hr | hr
      · exact keyLt_trans (hcross (k, v) (by simp) r hr) (keysSorted_head_lt hs q hq)
      · simp at hr
        rw [hr]
        exact keysSorted_head_lt hs q hq

theorem buildMap_sorted (fs : List (String × Json)) (h : keysSorted fs = true) :
    Json.buildMap fs = fs := by
  rw [Json.buildMap, foldl_insertSorted fs [] h (by simp)]
  simp

/-! ## Round-trip groundwork: parser step lemmas

Each lemma exposes one step of the fueled parser once the relevant
sub-results are known, so the round-trip induction can rewrite by them
without unfolding the mutual definitions on abstract arguments. -/

theorem numDelim_ws_append (w : List Char) (hw : ∀ c ∈ w, isWs c = true)
    (cs : List Char) (h : numDelim cs = true) : numDelim (w ++ cs) = true := by
  cases w with
  | nil => exact h
  | cons c t =>
    have hc := hw c (by simp)
    simp only [isWs, Bool.or_eq_true, beq_iff_eq] at hc
    rcases hc with ((hc | hc) | hc) | hc <;> subst hc <;> rfl

theorem parseVal_arr_go (f b : Nat) (X T : List Char) (c : Char)
    (hskip : skipWs X = c :: T) (hne : c ≠ ']') :
    parseVal (f + 1) (b + 2) ('[' :: X)
      = match parseElems f (b + 1) (c :: T) with
        | some (es, r) => some (.arr es, r)
        | none => none := by
  rw [show parseVal (f + 1) (b + 2) ('[' :: X)
      = (match skipWs X with
         | [] => none
         | c₁ :: t₁ =>
           if c₁ = ']' then some (.arr [], t₁)
           else
             match parseElems f (b + 1) (c₁ :: t₁) with
             | some (es, r) => some (.arr es, r)
             | none => none) from rfl, hskip]
  show (if c = ']' then some (Json.arr [], T)
    else
      match parseElems f (b + 1) (c :: T) with
      | some (es, r) => some (Json.arr es, r)
      | none => none) = _
  rw [if_neg hne]

theorem parseVal_obj_go (f b : Nat) (X T : List Char) (c : Char)
    (hskip : skipWs X = c :: T) (hne : c ≠ '\x7d') :
    parseVal (f + 1) (b + 2) ('\x7b' :: X)
      = match parseMembers f (b + 1) (c :: T) with
        | some (ms, r) => some (.obj (Json.buildMap ms), r)
        | none => none := by
  rw [show parseVal (f + 1) (b + 2) ('\x7b' :: X)
      = (match skipWs X with
         | [] => none
         | c₁ :: t₁ =>
           if c₁ = '\x7d' then some (.obj [], t₁)
           else
             match parseMembers f (b + 1) (c₁ :: t₁) with
             | some (ms, r) => some (.obj (Json.buildMap ms), r)
             | none => none) from rfl, hskip]
  show (if c = '\x7d' then some (Json.obj [], T)
    else
      match parseMembers f (b + 1) (c :: T) with
      | some (ms, r) => some (Json.obj (Json.buildMap ms), r)
      | none => none) = _
  rw [if_neg hne]

theorem renderNum_head (n : JNum) :
    ∃ c t, renderNum n = c :: t ∧ (c = '-' ∨ isDigit c = true) := by
  have hdig : ∀ m : Nat, ∃ c t, natChars m = c :: t ∧ (c = '-' ∨ isDigit c = true) := by
    intro m
    obtain ⟨c, t, hct⟩ : ∃ c t, natChars m = c :: t := by
      cases hm : natChars m with
      | nil => exact absurd hm (natChars_ne_nil _)
      | cons a b => exact ⟨a, b, rfl⟩
    exact ⟨c, t, hct, Or.inr (natChars_digits m c (by rw [hct]; simp))⟩
  cases n with
  | uint m => exact hdig m
  | int m => exact ⟨'-', natChars m.natAbs, rfl, Or.inl rfl⟩
  | float neg ip fr ex =>
    cases neg with
    | true => exact ⟨'-', natChars ip ++ renderFrac fr ++ renderExp ex, rfl, Or.inl rfl⟩
    | false =>
      obtain ⟨c, t, hct, hc⟩ := hdig ip
      refine ⟨c, t ++ renderFrac fr ++ renderExp ex, ?_, hc⟩
      rw [show renderNum (.float false ip fr ex)
        = natChars ip ++ renderFrac fr ++ renderExp ex from rfl, hct]
      rfl

theorem parseVal_num_head (fuel budget : Nat) (c : Char) (t : List Char)
    (hc : c = '-' ∨ isDigit c = true) :
    parseVal (fuel + 1) budget (c :: t)
      = (parseNum (c :: t)).map (fun p => (.num p.1, p.2)) := by
  rcases hc with rfl | hd
  · rfl
  · obtain ⟨k, hk1, hk2, hck⟩ : ∃ k, 48 ≤ k ∧ k ≤ 57 ∧ c = Char.ofNat k := by
      refine ⟨c.toNat, ?_, ?_, (Char.ofNat_toNat c).symm⟩ <;>
        (simp only [isDigit, Bool.and_eq_true, decide_eq_true_eq] at hd; omega)
    subst hck
    interval_cases k <;> rfl

theorem parseElems_step (f b : Nat) (cs : List Char) :
    parseElems (f + 1) b cs
      = match parseVal f b cs with
        | none => none
        | some (v, r) =>
          match skipWs r with
          | [] => none
          | c :: r₁ =>
            if c = ',' then
              match parseElems f b (skipWs r₁) with
              | some (es, r₂) => some (v :: es, r₂)
              | none => none
            else if c = ']' then some ([v], r₁)
            else none := rfl

theorem parseElems_close (f b : Nat) (cs r rest : List Char) (v : Json)
    (hv : parseVal f b cs = some (v, r)) (hr : skipWs r = ']' :: rest) :
    parseElems (f + 1) b cs = some ([v], rest) := by
  rw [parseElems_step, hv]
  show (match skipWs r with
    | [] => none
    | c :: r₁ =>
      if c = ',' then
        match parseElems f b (skipWs r₁) with
        | some (es, r₂) => some (v :: es, r₂)
        | none => none
      else if c = ']' then some ([v], r₁)
      else none) = _
  rw [hr]
  rfl

theorem parseElems_comma (f b : Nat) (cs r r₁ rest : List Char) (v : Json)
    (es : List Json)
    (hv : parseVal f b cs = some (v, r)) (hr : skipWs r = ',' :: r₁)
    (hrec : parseElems f b (skipWs r₁) = some (es, rest)) :
    parseElems (f + 1) b cs = some (v :: es, rest) := by
  rw [parseElems_step, hv]
  show (match skipWs r with
    | [] => none
    | c :: r₂ =>
      if c = ',' then
        match parseElems f b (skipWs r₂) with
        | some (es, r₃) => some (v :: es, r₃)
        | none => none
      else if c = ']' then some ([v], r₂)
      else none) = _
  rw [hr]
  show (match parseElems f b (skipWs r₁) with
    | some (es, r₃) => some (v :: es, r₃)
    | none => none) = _
  rw [hrec]

theorem parseMembers_go (f b : Nat) (t r : List Char) (k : String)
    (hk : parseStrBody [] t = some (k, r)) :
    parseMembers (f + 1) b ('"' :: t)
      = match skipWs r with
        | [] => none
        | c₁ :: r₁ =>
          if c₁ = ':' then
            match parseVal f b (skipWs r₁) with
            | none => none
            | some (v, r₂) =>
              match skipWs r₂ with
              | [] => none
              | c₂ :: r₃ =>
                if c₂ = ',' then
                  match parseMembers f b (skipWs r₃) with
                  | some (ms, r₄) => some ((k, v) :: ms, r₄)
                  | none => none
                else if c₂ = '\x7d' then some ([(k, v)], r₃)
                else none
          else none := by
  rw [show parseMembers (f + 1) b ('"' :: t)
      = (match parseStrBody [] t with
         | none => none
         | some (k, r) =>
           match skipWs r with
           | [] => none
           | c₁ :: r₁ =>
             if c₁ = ':' then
               match parseVal f b (skipWs r₁) with
               | none => none
               | some (v, r₂) =>
                 match skipWs r₂ with
                 | [] => none
                 | c₂ :: r₃ =>
                   if c₂ = ',' then
                     match parseMembers f b (skipWs r₃) with
                     | some (ms, r₄) => some ((k, v) :: ms, r₄)
                     | none => none
                   else if c₂ = '\x7d' then some ([(k, v)], r₃)
                   else none
             else none) from rfl, hk]

theorem parseMembers_close (f b : Nat) (t r r₁ r₂ rest : List Char) (k : String)
    (v : Json)
    (hk : parseStrBody [] t = some (k, r)) (hc : skipWs r = ':' :: r₁)
    (hv : parseVal f b (skipWs r₁) = some (v, r₂))
    (hr : skipWs r₂ = '\x7d' :: rest) :
    parseMembers (f + 1) b ('"' :: t) = some ([(k, v)], rest) := by
  rw [parseMembers_go f b t r k hk, hc]
  show (match parseVal f b (skipWs r₁) with
    | none => none
    | some (v, r₂) =>
      match skipWs r₂ with
      | [] => none
      | c₂ :: r₃ =>
        if c₂ = ',' then
          match parseMembers f b (skipWs r₃) with
          | some (ms, r₄) => some ((k, v) :: ms, r₄)
          | none => none
        else if c₂ = '\x7d' then some ([(k, v)], r₃)
        else none) = _
  rw [hv]
  show (match skipWs r₂ with
    | [] => none
    | c₂ :: r₃ =>
      if c₂ = ',' then
        match parseMembers f b (skipWs r₃) with
        | some (ms, r₄) => some ((k, v) :: ms, r₄)
        | none => none
      else if c₂ = '\x7d' then some ([(k, v)], r₃)
      else none) = _
  rw [hr]
  rfl

theorem parseMembers_comma (f b : Nat) (t r r₁ r₂ r₃ rest : List Char)
    (k : String) (v : Json) (ms : List (String × Json))
    (hk : parseStrBody [] t = some (k, r)) (hc : skipWs r = ':' :: r₁)
    (hv : parseVal f b (skipWs r₁) = some (v, r₂))
    (hr : skipWs r₂ = ',' :: r₃)
    (hrec : parseMembers f b (skipWs r₃) = some (ms, rest)) :
    parseMembers (f + 1) b ('"' :: t) = some ((k, v) :: ms, rest) := by
  rw [parseMembers_go f b t r k hk, hc]
  show (match parseVal f b (skipWs r₁) with
    | none => none
    | some (v, r₂) =>
      match skipWs r₂ with
      | [] => none
      | c₂ :: r₄ =>
        if c₂ = ',' then
          match parseMembers f b (skipWs r₄) with
          | some (ms, r₅) => some ((k, v) :: ms, r₅)
          | none => none
        else if c₂ = '\x7d' then some ([(k, v)], r₄)
        else none) = _
  rw [hv]
  show (match skipWs r₂ with
    | [] => none
    | c₂ :: r₄ =>
      if c₂ = ',' then
        match parseMembers f b (skipWs r₄) with
        | some (ms, r₅) => some ((k, v) :: ms, r₅)
        | none => none
      else if c₂ = '\x7d' then some ([(k, v)], r₄)
      else none) = _
  rw [hr]
  show (match parseMembers f b (skipWs r₃) with
    | some (ms, r₅) => some ((k, v) :: ms, r₅)
    | none => none) = _
  rw [hrec]

/-! ## The round trip: parsing a rendered value gives the value back

The induction is over the value; `fuel` only needs to dominate the length
of the rendered text, and `budget` must strictly exceed the value's
container depth — exactly serde's decrement-then-test recursion
accounting, under which the initial 128 admits depth at most 127. -/

mutual

theorem rt_val : ∀ (v : Json) (L : Layout), LayoutWs L →
    ∀ (d fuel budget : Nat) (rest : List Char), wf v = true →
      (renderVal L d v).length < fuel → jdepth v < budget →
      numDelim rest = true →
      parseVal fuel budget (renderVal L d v ++ rest) = some (v, rest)
  | .null, L, hL, d, fuel, budget, rest, hwf, hfuel, hdep, hrest => by
    obtain ⟨f, rfl⟩ : ∃ f, fuel = f + 1 := ⟨fuel - 1, by omega⟩
    rfl
  | .bool true, L, hL, d, fuel, budget, rest, hwf, hfuel, hdep, hrest => by
    obtain ⟨f, rfl⟩ : ∃ f, fuel = f + 1 := ⟨fuel - 1, by omega⟩
    rfl
  | .bool false, L, hL, d, fuel, budget, rest, hwf, hfuel, hdep, hrest => by
    obtain ⟨f, rfl⟩ : ∃ f, fuel = f + 1 := ⟨fuel - 1, by omega⟩
    rfl
  | .num n, L, hL, d, fuel, budget, rest, hwf, hfuel, hdep, hrest => by
    obtain ⟨f, rfl⟩ : ∃ f, fuel = f + 1 := ⟨fuel - 1, by omega⟩
    simp only [wf] at hwf
    obtain ⟨c, t, hct, hc⟩ := renderNum_head n
    rw [show renderVal L d (.num n) = renderNum n from rfl, hct, List.cons_append,
      parseVal_num_head f budget c (t ++ rest) hc, ← List.cons_append, ← hct,
      parseNum_renderNum n hwf rest hrest]
    rfl
  | .str s, L, hL, d, fuel, budget, rest, hwf, hfuel, hdep, hrest => by
    obtain ⟨f, rfl⟩ : ∃ f, fuel = f + 1 := ⟨fuel - 1, by omega⟩
    rw [show renderVal L d (.str s) ++ rest
        = '"' :: (escapeList s.data ++ '"' :: rest) by
          simp [renderVal, renderStr],
      show parseVal (f + 1) budget ('"' :: (escapeList s.data ++ '"' :: rest))
        = (parseStrBody [] (escapeList s.data ++ '"' :: rest)).map
            (fun p => (.str p.1, p.2)) from rfl,
      parseStrBody_escape s.data [] rest]
    rfl
  | .arr [], L, hL, d, fuel, budget, rest, hwf, hfuel, hdep, hrest => by
    obtain ⟨f, rfl⟩ : ∃ f, fuel = f + 1 := ⟨fuel - 1, by omega⟩
    obtain ⟨b, rfl⟩ : ∃ b, budget = b + 2 := ⟨budget - 2, by
      have h1 : jdepth (Json.arr []) = 1 := rfl
      omega⟩
    rfl
  | .arr (e :: es), L, hL, d, fuel, budget, rest, hwf, hfuel, hdep, hrest => by
    simp only [wf, wfElems, Bool.and_eq_true] at hwf
    simp only [jdepth, depthElems] at hdep
    obtain ⟨f, rfl⟩ : ∃ f, fuel = f + 1 := ⟨fuel - 1, by omega⟩
    obtain ⟨b, rfl⟩ : ∃ b, budget = b + 2 := ⟨budget - 2, by omega⟩
    obtain ⟨c, t, hct, hcws, hcbr, _⟩ := renderVal_head L (d + 1) e
    have hfe : (renderVal L (d + 1) e).length
        + (renderElemsTail L (d + 1) es).length + 1 < f := by
      rw [show renderVal L d (.arr (e :: es))
        = '[' :: L.openWs (d + 1) ++ renderVal L (d + 1) e ++
            renderElemsTail L (d + 1) es ++ L.closeWs d ++ [']'] from rfl] at hfuel
      simp only [List.length_cons, List.length_append,
        List.length_singleton] at hfuel
      omega
    have hren : renderVal L d (.arr (e :: es)) ++ rest
        = '[' :: (L.openWs (d + 1) ++ (renderVal L (d + 1) e ++
            (renderElemsTail L (d + 1) es ++ (L.closeWs d ++ ']' :: rest)))) := by
      rw [show renderVal L d (.arr (e :: es))
        = '[' :: L.openWs (d + 1) ++ renderVal L (d + 1) e ++
            renderElemsTail L (d + 1) es ++ L.closeWs d ++ [']'] from rfl]
      simp [List.append_assoc]
    have hskip : skipWs (L.openWs (d + 1) ++ (renderVal L (d + 1) e ++
        (renderElemsTail L (d + 1) es ++ (L.closeWs d ++ ']' :: rest))))
        = c :: (t ++ (renderElemsTail L (d + 1) es ++ (L.closeWs d ++ ']' :: rest))) := by
      rw [skipWs_ws_append _ (hL.1 (d + 1)), skipWs_renderVal, hct, List.cons_append]
    have hcall := rt_elems e es L hL (d + 1) d f (b + 1) rest hwf.1 hwf.2 hfe
      (by omega) (by omega)
    rw [hren, parseVal_arr_go f b _ _ c hskip hcbr,
      show c :: (t ++ (renderElemsTail L (d + 1) es ++ (L.closeWs d ++ ']' :: rest)))
        = renderVal L (d + 1) e ++
            (renderElemsTail L (d + 1) es ++ (L.closeWs d ++ ']' :: rest)) by
        rw [hct]; rfl,
      hcall]
  | .obj [], L, hL, d, fuel, budget, rest, hwf, hfuel, hdep, hrest => by
    obtain ⟨f, rfl⟩ : ∃ f, fuel = f + 1 := ⟨fuel - 1, by omega⟩
    obtain ⟨b, rfl⟩ : ∃ b, budget = b + 2 := ⟨budget - 2, by
      have h1 : jdepth (Json.obj []) = 1 := rfl
      omega⟩
    rfl
  | .obj ((k, v) :: ms), L, hL, d, fuel, budget, rest, hwf, hfuel, hdep, hrest => by
    simp only [wf, wfFields, Bool.and_eq_true] at hwf
    simp only [jdepth, depthFields] at hdep
    obtain ⟨f, rfl⟩ : ∃ f, fuel = f + 1 := ⟨fuel - 1, by omega⟩
    obtain ⟨b, rfl⟩ : ∃ b, budget = b + 2 := ⟨budget - 2, by omega⟩
    have hfe : (renderStr k).length + (renderVal L (d + 1) v).length
        + (renderMembersTail L (d + 1) ms).length + 1 < f := by
      rw [show renderVal L d (.obj ((k, v) :: ms))
        = '\x7b' :: L.openWs (d + 1) ++ renderStr k ++ ':' :: L.colonWs ++
            renderVal L (d + 1) v ++ renderMembersTail L (d + 1) ms ++
            L.closeWs d ++ ['\x7d'] from rfl] at hfuel
      simp only [List.length_cons, List.length_append,
        List.length_singleton] at hfuel
      omega
    have hren : renderVal L d (.obj ((k, v) :: ms)) ++ rest
        = '\x7b' :: (L.openWs (d + 1) ++ (renderStr k ++ (':' :: (L.colonWs ++
            (renderVal L (d + 1) v ++ (renderMembersTail L (d + 1) ms ++
              (L.closeWs d ++ '\x7d' :: rest))))))) := by
      rw [show renderVal L d (.obj ((k, v) :: ms))
        = '\x7b' :: L.openWs (d + 1) ++ renderStr k ++ ':' :: L.colonWs ++
            renderVal L (d + 1) v ++ renderMembersTail L (d + 1) ms ++
            L.closeWs d ++ ['\x7d'] from rfl]
      simp [List.append_assoc]
    have harg : renderStr k ++ (':' :: (L.colonWs ++
        (renderVal L (d + 1) v ++ (renderMembersTail L (d + 1) ms ++
          (L.closeWs d ++ '\x7d' :: rest)))))
        = '"' :: (escapeList k.data ++ '"' :: (':' :: (L.colonWs ++
            (renderVal L (d + 1) v ++ (renderMembersTail L (d + 1) ms ++
              (L.closeWs d ++ '\x7d' :: rest)))))) := by
      simp [renderStr]
    have hskip : skipWs (L.openWs (d + 1) ++ (renderStr k ++ (':' :: (L.colonWs ++
        (renderVal L (d + 1) v ++ (renderMembersTail L (d + 1) ms ++
          (L.closeWs d ++ '\x7d' :: rest)))))))
        = '"' :: (escapeList k.data ++ '"' :: (':' :: (L.colonWs ++
            (renderVal L (d + 1) v ++ (renderMembersTail L (d + 1) ms ++
              (L.closeWs d ++ '\x7d' :: rest)))))) := by
      rw [skipWs_ws_append _ (hL.1 (d + 1)), harg]
      exact skipWs_not_ws _ (by decide)
    have hcall := rt_members k v ms L hL (d + 1) d f (b + 1) rest hwf.2.1 hwf.2.2 hfe
      (by omega) (by omega)
    rw [hren, parseVal_obj_go f b _ _ '"' hskip (by decide), ← harg, hcall]
    show some (Json.obj (Json.buildMap ((k, v) :: ms)), rest) = _
    rw [buildMap_sorted _ hwf.1]
termination_by v _ _ _ _ _ _ _ _ _ _ => sizeOf v

theorem rt_elems : ∀ (e : Json) (es : List Json) (L : Layout), LayoutWs L →
    ∀ (d d' fuel budget : Nat) (rest : List Char),
      wf e = true → wfElems es = true →
      (renderVal L d e).length + (renderElemsTail L d es).length + 1 < fuel →
      jdepth e < budget → depthElems es < budget →
      parseElems fuel budget
        (renderVal L d e ++ (renderElemsTail L d es ++ (L.closeWs d' ++ ']' :: rest)))
        = some (e :: es, rest)
  | e, [], L, hL, d, d', fuel, budget, rest, hwfe, hwfes, hfuel, hdepe, hdepes => by
    obtain ⟨f, rfl⟩ : ∃ f, fuel = f + 1 := ⟨fuel - 1, by omega⟩
    rw [show renderElemsTail L d ([] : List Json) = [] from rfl, List.nil_append]
    have hval := rt_val e L hL d f budget (L.closeWs d' ++ ']' :: rest) hwfe
      (by
        have h0 : (renderElemsTail L d ([] : List Json)).length = 0 := rfl
        omega)
      hdepe
      (numDelim_ws_append _ (hL.2.2.1 d') _ rfl)
    have hskip : skipWs (L.closeWs d' ++ ']' :: rest) = ']' :: rest := by
      rw [skipWs_ws_append _ (hL.2.2.1 d'), skipWs_not_ws rest (by decide)]
    exact parseElems_close f budget _ _ rest e hval hskip
  | e, e₂ :: es, L, hL, d, d', fuel, budget, rest, hwfe, hwfes, hfuel, hdepe, hdepes => by
    simp only [wfElems, Bool.and_eq_true] at hwfes
    simp only [depthElems] at hdepes
    obtain ⟨f, rfl⟩ : ∃ f, fuel = f + 1 := ⟨fuel - 1, by omega⟩
    have hRT : renderElemsTail L d (e₂ :: es)
        = ',' :: (L.sepWs d ++ (renderVal L d e₂ ++ renderElemsTail L d es)) := by
      rw [show renderElemsTail L d (e₂ :: es)
        = ',' :: L.sepWs d ++ renderVal L d e₂ ++ renderElemsTail L d es from rfl]
      simp [List.append_assoc]
    rw [hRT] at hfuel
    simp only [List.length_cons, List.length_append] at hfuel
    have hval := rt_val e L hL d f budget
      (renderElemsTail L d (e₂ :: es) ++ (L.closeWs d' ++ ']' :: rest)) hwfe
      (by omega)
      hdepe
      (by rw [hRT]; rfl)
    have hr1 : renderElemsTail L d (e₂ :: es) ++ (L.closeWs d' ++ ']' :: rest)
        = ',' :: (L.sepWs d ++ (renderVal L d e₂ ++ (renderElemsTail L d es ++
            (L.closeWs d' ++ ']' :: rest)))) := by
      rw [hRT]
      simp [List.append_assoc]
    have hskipr : skipWs (renderElemsTail L d (e₂ :: es) ++
        (L.closeWs d' ++ ']' :: rest))
        = ',' :: (L.sepWs d ++ (renderVal L d e₂ ++ (renderElemsTail L d es ++
            (L.closeWs d' ++ ']' :: rest)))) := by
      rw [hr1]
      exact skipWs_not_ws _ (by decide)
    have hskip1 : skipWs (L.sepWs d ++ (renderVal L d e₂ ++ (renderElemsTail L d es ++
        (L.closeWs d' ++ ']' :: rest))))
        = renderVal L d e₂ ++ (renderElemsTail L d es ++
            (L.closeWs d' ++ ']' :: rest)) := by
      rw [skipWs_ws_append _ (hL.2.1 d), skipWs_renderVal]
    have hrec := rt_elems e₂ es L hL d d' f budget rest hwfes.1 hwfes.2
      (by omega) (by omega) (by omega)
    exact parseElems_comma f budget _ _ _ rest e (e₂ :: es) hval hskipr
      (by rw [hskip1]; exact hrec)
termination_by e es _ _ _ _ _ _ _ _ _ _ _ _ => sizeOf e + sizeOf es

theorem rt_members : ∀ (k : String) (v : Json) (ms : List (String × Json))
    (L : Layout), LayoutWs L →
    ∀ (d d' fuel budget : Nat) (rest : List Char),
      wf v = true → wfFields ms = true →
      (renderStr k).length + (renderVal L d v).length
        + (renderMembersTail L d ms).length + 1 < fuel →
      jdepth v < budget → depthFields ms < budget →
      parseMembers fuel budget
        (renderStr k ++ (':' :: (L.colonWs ++ (renderVal L d v ++
          (renderMembersTail L d ms ++ (L.closeWs d' ++ '\x7d' :: rest))))))
        = some ((k, v) :: ms, rest)
  | k, v, [], L, hL, d, d', fuel, budget, rest, hwfv, hwfms, hfuel, hdepv, hdepms => by
    obtain ⟨f, rfl⟩ : ∃ f, fuel = f + 1 := ⟨fuel - 1, by omega⟩
    rw [show renderMembersTail L d ([] : List (String × Json)) = [] from rfl,
      List.nil_append]
    have harg : renderStr k ++ (':' :: (L.colonWs ++ (renderVal L d v ++
        (L.closeWs d' ++ '\x7d' :: rest))))
        = '"' :: (escapeList k.data ++ '"' :: (':' :: (L.colonWs ++
            (renderVal L d v ++ (L.closeWs d' ++ '\x7d' :: rest))))) := by
      simp [renderStr]
    have hk : parseStrBody [] (escapeList k.data ++ '"' :: (':' :: (L.colonWs ++
        (renderVal L d v ++ (L.closeWs d' ++ '\x7d' :: rest)))))
        = some (k, ':' :: (L.colonWs ++
            (renderVal L d v ++ (L.closeWs d' ++ '\x7d' :: rest)))) :=
      parseStrBody_escape k.data [] _
    have hc : skipWs (':' :: (L.colonWs ++
        (renderVal L d v ++ (L.closeWs d' ++ '\x7d' :: rest))))
        = ':' :: (L.colonWs ++
            (renderVal L d v ++ (L.closeWs d' ++ '\x7d' :: rest))) :=
      skipWs_not_ws _ (by decide)
    have hskip1 : skipWs (L.colonWs ++
        (renderVal L d v ++ (L.closeWs d' ++ '\x7d' :: rest)))
        = renderVal L d v ++ (L.closeWs d' ++ '\x7d' :: rest) := by
      rw [skipWs_ws_append _ hL.2.2.2, skipWs_renderVal]
    have hval := rt_val v L hL d f budget (L.closeWs d' ++ '\x7d' :: rest) hwfv
      (by
        have h0 : (renderMembersTail L d ([] : List (String × Json))).length = 0 := rfl
        omega)
      hdepv
      (numDelim_ws_append _ (hL.2.2.1 d') _ rfl)
    have hr : skipWs (L.closeWs d' ++ '\x7d' :: rest) = '\x7d' :: rest := by
      rw [skipWs_ws_append _ (hL.2.2.1 d'), skipWs_not_ws rest (by decide)]
    rw [harg]
    exact parseMembers_close f budget _ _ _ _ rest k v hk hc
      (by rw [hskip1]; exact hval) hr
  | k, v, (k₂, v₂) :: ms, L, hL, d, d', fuel, budget, rest, hwfv, hwfms, hfuel,
      hdepv, hdepms => by
    simp only [wfFields, Bool.and_eq_true] at hwfms
    simp only [depthFields] at hdepms
    obtain ⟨f, rfl⟩ : ∃ f, fuel = f + 1 := ⟨fuel - 1, by omega⟩
    have hRT : renderMembersTail L d ((k₂, v₂) :: ms)
        = ',' :: (L.sepWs d ++ (renderStr k₂ ++ (':' :: (L.colonWs ++
            (renderVal L d v₂ ++ renderMembersTail L d ms))))) := by
      rw [show renderMembersTail L d ((k₂, v₂) :: ms)
        = ',' :: L.sepWs d ++ renderStr k₂ ++ ':' :: L.colonWs ++
            renderVal L d v₂ ++ renderMembersTail L d ms from rfl]
      simp [List.append_assoc]
    rw [hRT] at hfuel
    simp only [List.length_cons, List.length_append] at hfuel
    have harg : renderStr k ++ (':' :: (L.colonWs ++ (renderVal L d v ++
        (renderMembersTail L d ((k₂, v₂) :: ms) ++ (L.closeWs d' ++ '\x7d' :: rest)))))
        = '"' :: (escapeList k.data ++ '"' :: (':' :: (L.colonWs ++
            (renderVal L d v ++ (renderMembersTail L d ((k₂, v₂) :: ms) ++
              (L.closeWs d' ++ '\x7d' :: rest)))))) := by
      simp [renderStr]
    have hk : parseStrBody [] (escapeList k.data ++ '"' :: (':' :: (L.colonWs ++
        (renderVal L d v ++ (renderMembersTail L d ((k₂, v₂) :: ms) ++
          (L.closeWs d' ++ '\x7d' :: rest))))))
        = some (k, ':' :: (L.colonWs ++
            (renderVal L d v ++ (renderMembersTail L d ((k₂, v₂) :: ms) ++
              (L.closeWs d' ++ '\x7d' :: rest))))) :=
      parseStrBody_escape k.data [] _
    have hc : skipWs (':' :: (L.colonWs ++
        (renderVal L d v ++ (renderMembersTail L d ((k₂, v₂) :: ms) ++
          (L.closeWs d' ++ '\x7d' :: rest)))))
        = ':' :: (L.colonWs ++
            (renderVal L d v ++ (renderMembersTail L d ((k₂, v₂) :: ms) ++
              (L.closeWs d' ++ '\x7d' :: rest)))) :=
      skipWs_not_ws _ (by decide)
    have hskip1 : skipWs (L.colonWs ++
        (renderVal L d v ++ (renderMembersTail L d ((k₂, v₂) :: ms) ++
          (L.closeWs d' ++ '\x7d' :: rest))))
        = renderVal L d v ++ (renderMembersTail L d ((k₂, v₂) :: ms) ++
            (L.closeWs d' ++ '\x7d' :: rest)) := by
      rw [skipWs_ws_append _ hL.2.2.2, skipWs_renderVal]
    have hval := rt_val v L hL d f budget
      (renderMembersTail L d ((k₂, v₂) :: ms) ++ (L.closeWs d' ++ '\x7d' :: rest))
      hwfv
      (by omega)
      hdepv
      (by rw [hRT]; rfl)
    have hr2 : renderMembersTail L d ((k₂, v₂) :: ms) ++ (L.closeWs d' ++ '\x7d' :: rest)
        = ',' :: (L.sepWs d ++ (renderStr k₂ ++ (':' :: (L.colonWs ++
            (renderVal L d v₂ ++ (renderMembersTail L d ms ++
              (L.closeWs d' ++ '\x7d' :: rest))))))) := by
      rw [hRT]
      simp [List.append_assoc]
    have hskipr : skipWs (renderMembersTail L d ((k₂, v₂) :: ms) ++
        (L.closeWs d' ++ '\x7d' :: rest))
        = ',' :: (L.sepWs d ++ (renderStr k₂ ++ (':' :: (L.colonWs ++
            (renderVal L d v₂ ++ (renderMembersTail L d ms ++
              (L.closeWs d' ++ '\x7d' :: rest))))))) := by
      rw [hr2]
      exact skipWs_not_ws _ (by decide)
    have harg₂ : renderStr k₂ ++ (':' :: (L.colonWs ++
        (renderVal L d v₂ ++ (renderMembersTail L d ms ++
          (L.closeWs d' ++ '\x7d' :: rest)))))
        = '"' :: (escapeList k₂.data ++ '"' :: (':' :: (L.colonWs ++
            (renderVal L d v₂ ++ (renderMembersTail L d ms ++
              (L.closeWs d' ++ '\x7d' :: rest)))))) := by
      simp [renderStr]
    have hskip3 : skipWs (L.sepWs d ++ (renderStr k₂ ++ (':' :: (L.colonWs ++
        (renderVal L d v₂ ++ (renderMembersTail L d ms ++
          (L.closeWs d' ++ '\x7d' :: rest)))))))
        = renderStr k₂ ++ (':' :: (L.colonWs ++
            (renderVal L d v₂ ++ (renderMembersTail L d ms ++
              (L.closeWs d' ++ '\x7d' :: rest))))) := by
      rw [skipWs_ws_append _ (hL.2.1 d), harg₂]
      exact skipWs_not_ws _ (by decide)
    have hrec := rt_members k₂ v₂ ms L hL d d' f budget rest hwfms.1 hwfms.2
      (by omega) (by omega) (by omega)
    rw [harg]
    exact parseMembers_comma f budget _ _ _ _ _ rest k v ((k₂, v₂) :: ms) hk hc
      (by rw [hskip1]; exact hval) hskipr
      (by rw [hskip3]; exact hrec)
termination_by _ v ms _ _ _ _ _ _ _ _ _ _ _ _ => sizeOf v + sizeOf ms

end

/-- Top-level round trip under any whitespace-only layout: parsing a
rendered well-formed value of depth strictly below the recursion limit
(at most 127, serde's deepest parseable document) gives the value back. -/
theorem parseJsonL_render (v : Json) (L : Layout) (hL : LayoutWs L)
    (hwf : wf v = true) (hdep : jdepth v < recursionLimit) :
    parseJsonL (renderVal L 0 v) = some v := by
  have h := rt_val v L hL 0 (2 * (renderVal L 0 v).length + 4) recursionLimit []
    hwf (by omega) hdep rfl
  rw [List.append_nil] at h
  have hskip0 : skipWs (renderVal L 0 v) = renderVal L 0 v := by
    have h2 := skipWs_renderVal L 0 v []
    rwa [List.append_nil] at h2
  show (match parseVal (2 * (renderVal L 0 v).length + 4) recursionLimit
      (skipWs (renderVal L 0 v)) with
    | some (v, r) => if skipWs r = [] then some v else none
    | none => none) = some v
  rw [hskip0, h]
  rfl

/-- `serde_json::to_string` then `from_str` round-trips. -/
theorem toStringL_roundtrip (v : Json) (hwf : wf v = true)
    (hdep : jdepth v < recursionLimit) : parseJsonL (toStringL v) = some v :=
  parseJsonL_render v compactL compactL_ws hwf hdep

/-- `serde_json::to_string_pretty` then `from_str` round-trips. -/
theorem toStringPrettyL_roundtrip (v : Json) (hwf : wf v = true)
    (hdep : jdepth v < recursionLimit) : parseJsonL (toStringPrettyL v) = some v :=
  parseJsonL_render v prettyL prettyL_ws hwf hdep

/-! ## The recursion limit is real: deeply nested documents fail to parse -/

/-- `n` nested singleton arrays around `null`: a well-formed value of
container depth exactly `n`. -/
def nestArr : Nat → Json
  | 0 => .null
  | n + 1 => .arr [nestArr n]

theorem nestArr_wf : ∀ n, wf (nestArr n) = true := by
  intro n
  induction n with
  | zero => rfl
  | succ n ih => simp [nestArr, wf, wfElems, ih]

theorem nestArr_depth : ∀ n, jdepth (nestArr n) = n := by
  intro n
  induction n with
  | zero => rfl
  | succ n ih => simp [nestArr, jdepth, depthElems, ih]; omega

/-- When the remaining recursion budget does not exceed the nesting depth
of a container document, the parser rejects it — whatever the fuel, the
layout, or the following text.  The boundary matches `check_recursion`:
entering the `b`-th nested container with initial budget `b` already
fails. -/
theorem parseVal_nestArr_none (L : Layout) (hL : LayoutWs L) :
    ∀ (n b : Nat), 1 ≤ n → b ≤ n → ∀ (fuel d : Nat) (rest : List Char),
      parseVal fuel b (renderVal L d (nestArr n) ++ rest) = none := by
  intro n
  induction n with
  | zero => intro b hn; exact absurd hn (by omega)
  | succ n ih =>
    intro b hn hb fuel d rest
    cases fuel with
    | zero => rfl
    | succ f =>
      match b, hb with
      | 0, _ => rfl
      | 1, _ => rfl
      | b' + 2, hb =>
        have hn' : 1 ≤ n := by omega
        have hb' : b' + 1 ≤ n := by omega
        obtain ⟨c, t, hct, hcws, hcbr, _⟩ := renderVal_head L (d + 1) (nestArr n)
        have hren : renderVal L d (nestArr (n + 1)) ++ rest
            = '[' :: (L.openWs (d + 1) ++ (renderVal L (d + 1) (nestArr n) ++
                (L.closeWs d ++ ']' :: rest))) := by
          rw [show renderVal L d (nestArr (n + 1))
            = '[' :: L.openWs (d + 1) ++ renderVal L (d + 1) (nestArr n) ++
                renderElemsTail L (d + 1) [] ++ L.closeWs d ++ [']'] from rfl,
            show renderElemsTail L (d + 1) ([] : List Json) = [] from rfl]
          simp [List.append_assoc]
        have hskip : skipWs (L.openWs (d + 1) ++ (renderVal L (d + 1) (nestArr n) ++
            (L.closeWs d ++ ']' :: rest)))
            = c :: (t ++ (L.closeWs d ++ ']' :: rest)) := by
          rw [skipWs_ws_append _ (hL.1 (d + 1)), skipWs_renderVal, hct, List.cons_append]
        have helems : ∀ g, parseElems g (b' + 1)
            (c :: (t ++ (L.closeWs d ++ ']' :: rest))) = none := by
          intro g
          cases g with
          | zero => rfl
          | succ g' =>
            rw [parseElems_step,
              show c :: (t ++ (L.closeWs d ++ ']' :: rest))
                = renderVal L (d + 1) (nestArr n) ++ (L.closeWs d ++ ']' :: rest) by
                rw [hct]; rfl,
              ih (b' + 1) hn' hb' g' (d + 1) (L.closeWs d ++ ']' :: rest)]
        rw [hren, parseVal_arr_go f b' _ _ c hskip hcbr, helems f]

/-- A rendered object whose member list need not be sorted (serde's derived
struct `Serialize` emits fields in declaration order) still parses back —
to the sorted `BTreeMap` the `Value` deserializer builds. -/
theorem parseJsonL_render_obj (L : Layout) (hL : LayoutWs L)
    (k : String) (v : Json) (ms : List (String × Json))
    (hwfv : wf v = true) (hwfms : wfFields ms = true)
    (hdepv : jdepth v + 1 < recursionLimit)
    (hdepms : depthFields ms + 1 < recursionLimit) :
    parseJsonL (renderVal L 0 (.obj ((k, v) :: ms)))
      = some (.obj (Json.buildMap ((k, v) :: ms))) := by
  obtain ⟨f, hf⟩ : ∃ f, 2 * (renderVal L 0 (.obj ((k, v) :: ms))).length + 4 = f + 1 :=
    ⟨2 * (renderVal L 0 (.obj ((k, v) :: ms))).length + 3, by omega⟩
  have hb : recursionLimit = 126 + 2 := rfl
  have hren0 : renderVal L 0 (.obj ((k, v) :: ms))
      = '\x7b' :: (L.openWs 1 ++ (renderStr k ++ (':' :: (L.colonWs ++
          (renderVal L 1 v ++ (renderMembersTail L 1 ms ++
            (L.closeWs 0 ++ '\x7d' :: []))))))) := by
    rw [show renderVal L 0 (.obj ((k, v) :: ms))
      = '\x7b' :: L.openWs 1 ++ renderStr k ++ ':' :: L.colonWs ++
          renderVal L 1 v ++ renderMembersTail L 1 ms ++
          L.closeWs 0 ++ ['\x7d'] from rfl]
    simp [List.append_assoc]
  have hfe : (renderStr k).length + (renderVal L 1 v).length
      + (renderMembersTail L 1 ms).length + 1 < f := by
    rw [hren0] at hf
    simp only [List.length_cons, List.length_append, List.length_nil] at hf
    omega
  have harg : renderStr k ++ (':' :: (L.colonWs ++
      (renderVal L 1 v ++ (renderMembersTail L 1 ms ++
        (L.closeWs 0 ++ '\x7d' :: [])))))
      = '"' :: (escapeList k.data ++ '"' :: (':' :: (L.colonWs ++
          (renderVal L 1 v ++ (renderMembersTail L 1 ms ++
            (L.closeWs 0 ++ '\x7d' :: [])))))) := by
    simp [renderStr]
  have hskip : skipWs (L.openWs 1 ++ (renderStr k ++ (':' :: (L.colonWs ++
      (renderVal L 1 v ++ (renderMembersTail L 1 ms ++
        (L.closeWs 0 ++ '\x7d' :: [])))))))
      = '"' :: (escapeList k.data ++ '"' :: (':' :: (L.colonWs ++
          (renderVal L 1 v ++ (renderMembersTail L 1 ms ++
            (L.closeWs 0 ++ '\x7d' :: [])))))) := by
    rw [skipWs_ws_append _ (hL.1 1), harg]
    exact skipWs_not_ws _ (by decide)
  have hcall := rt_members k v ms L hL 1 0 f (126 + 1) [] hwfv hwfms hfe
    (by
      rw [hb] at hdepv
      omega)
    (by
      rw [hb] at hdepms
      omega)
  have hskip0 : skipWs (renderVal L 0 (.obj ((k, v) :: ms)))
      = renderVal L 0 (.obj ((k, v) :: ms)) := by
    have h2 := skipWs_renderVal L 0 (.obj ((k, v) :: ms)) []
    rwa [List.append_nil] at h2
  show (match parseVal (2 * (renderVal L 0 (.obj ((k, v) :: ms))).length + 4)
      recursionLimit (skipWs (renderVal L 0 (.obj ((k, v) :: ms)))) with
    | some (w, r) => if skipWs r = [] then some w else none
    | none => none) = some (.obj (Json.buildMap ((k, v) :: ms)))
  rw [hskip0, hf, hb, hren0, parseVal_obj_go f 126 _ _ '"' hskip (by decide),
    ← harg, hcall]
  rfl

/-- `JsonRpcError` (json_rpc.rs): `code: i32`, `message: String`,
`data: Option<Value>` (skipped when `None` on output). -/
structure JsonRpcError where
  code : Int
  message : String
  data : Option Json
deriving DecidableEq, Repr

/-- `JsonRpcResponse` (json_rpc.rs): both `result` and `error` are
`Option`s, each skipped when `None` on output; no further constraint. -/
structure JsonRpcResponse where
  jsonrpc : String
  result : Option Json
  error : Option JsonRpcError
  id : Json
deriving DecidableEq, Repr

/-- `JsonRpcRequest` (json_rpc.rs): `params` carries `#[serde(default)]`,
so a missing `params` deserializes to `Value::Null`. -/
structure JsonRpcRequest where
  jsonrpc : String
  method : String
  params : Json
  id : Json
deriving DecidableEq, Repr

/-- `i32`'s `Deserialize` from a JSON value: integers in range only
(floats and strings are type errors). -/
def asI32 : Json → Option Int
  | .num (.uint n) => if n ≤ 2 ^ 31 - 1 then some (n : Int) else none
  | .num (.int n) => if -(2 ^ 31) ≤ n then some n else none
  | _ => none

def asString : Json → Option String
  | .str s => some s
  | _ => none

/-- Derived `Deserialize` for `JsonRpcError`, factored through the value
it deserializes from: required `code: i32` and `message: String`,
`data: Option<Value>` where both a missing field and `null` give `None`. -/
def errOfJson (v : Json) : Option JsonRpcError := do
  let code ← (Json.jget v "code").bind asI32
  let message ← (Json.jget v "message").bind asString
  let data : Option Json :=
    match Json.jget v "data" with
    | none => none
    | some .null => none
    | some w => some w
  some ⟨code, message, data⟩

/-- An optional field of `Option<_>` type: both a missing field and an
explicit `null` deserialize to `None`. -/
def optField : Option Json → Option Json
  | none => none
  | some .null => none
  | some w => some w

/-- Derived `Deserialize` for `JsonRpcResponse`: required `jsonrpc: String`
and `id: Value`; `result` and `error` optional, with `null` read as `None`;
no exactly-one-of-`result`/`error` validation anywhere. -/
def respOfJson (v : Json) : Option JsonRpcResponse :=
  match v with
  | .obj _ => do
    let jr ← (Json.jget v "jsonrpc").bind asString
    let idv ← Json.jget v "id"
    let result : Option Json := optField (Json.jget v "result")
    let error ←
      match optField (Json.jget v "error") with
      | none => some none
      | some w => (errOfJson w).map some
    some ⟨jr, result, error, idv⟩
  | _ => none

/-- Derived `Deserialize` for `JsonRpcRequest`. -/
def reqOfJson (v : Json) : Option JsonRpcRequest :=
  match v with
  | .obj _ => do
    let jr ← (Json.jget v "jsonrpc").bind asString
    let m ← (Json.jget v "method").bind asString
    let params := (Json.jget v "params").getD Json.null
    let idv ← Json.jget v "id"
    some ⟨jr, m, params, idv⟩
  | _ => none

/-- Derived `Serialize` for `JsonRpcRequest`: the four fields in
declaration order (`result`-less; serde derive streams them in order). -/
def reqToJson (r : JsonRpcRequest) : Json :=
  .obj [("jsonrpc", .str r.jsonrpc), ("method", .str r.method),
        ("params", r.params), ("id", r.id)]

/-- `serde_json::to_string(&request)` — serialization of a request is
infallible (every field is a string or a `Value`). -/
def requestToChars (r : JsonRpcRequest) : List Char := toStringL (reqToJson r)

/-- `serde_json::from_str::<JsonRpcRequest>`. -/
def requestFromChars (cs : List Char) : Option JsonRpcRequest :=
  (parseJsonL cs).bind reqOfJson

/-- `serde_json::from_str::<JsonRpcResponse>` — the parse step of
`send_request` (lean_repl.rs line 211). -/
def responseFromChars (cs : List Char) : Option JsonRpcResponse :=
  (parseJsonL cs).bind respOfJson

/-! ## `lean_repl.rs`: the stream framer -/

/-- `str::find('\x7b')`. -/
def firstBrace : List Char → Option Nat
  | [] => none
  | c :: t => if c = '\x7b' then some 0 else (firstBrace t).map (· + 1)

/-- The scanning loop of `extract_json` (lean_repl.rs 254–279): from
character `i`, tracking brace depth, the in-string flag and the
pending-escape flag exactly as the Rust loop does — the escape flag is
consulted before the in-string flag, so a backslash outside a string also
escapes its successor, as in the source.  Returns the index at which depth
returns to zero. -/
def findEnd : List Char → Nat → Int → Bool → Bool → Option Nat
  | [], _, _, _, _ => none
  | c :: t, i, depth, inStr, esc =>
    if esc then findEnd t (i + 1) depth inStr false
    else if c = '\\' then findEnd t (i + 1) depth inStr true
    else if c = '"' then findEnd t (i + 1) depth (!inStr) false
    else if inStr then findEnd t (i + 1) depth inStr false
    else if c = '\x7b' then findEnd t (i + 1) (depth + 1) inStr false
    else if c = '\x7d' then
      if depth = 1 then some i else findEnd t (i + 1) (depth - 1) inStr false
    else findEnd t (i + 1) depth inStr false

theorem firstBrace_lt : ∀ (l : List Char) (s : Nat), firstBrace l = some s → s < l.length := by
  intro l
  induction l with
  | nil => intro s h; simp [firstBrace] at h
  | cons c t ih =>
    intro s h
    by_cases hc : c = '\x7b'
    · rw [firstBrace, if_pos hc] at h
      cases h
      simp
    · rw [firstBrace, if_neg hc] at h
      obtain ⟨a, ha, hfa⟩ := Option.map_eq_some'.mp h
      have := ih a ha
      simp only [List.length_cons]
      omega

/-- What one pass of `extract_json`'s body does before any recursion:
no balanced object (buffer untouched), a handshake to skip, a malformed
segment (dropped, scan ends), or an extracted object. -/
inductive StepRes where
  | nothing
  | skip (rest : List Char)
  | bad (rest : List Char)
  | out (s rest : List Char)
deriving DecidableEq, Repr

/-- The body of `extract_json` (lean_repl.rs 246–295) up to its one
recursive call: find the first brace, scan for the matching close, slice
the candidate text out of the buffer, parse it, and test the `id == 0`
handshake filter. -/
def extractStep (buf : List Char) : StepRes :=
  match firstBrace buf with
  | none => .nothing
  | some s =>
    match findEnd (buf.drop s) 0 0 false false with
    | none => .nothing
    | some i =>
      match parseJsonL ((buf.drop s).take (i + 1)) with
      | some v =>
        if Json.jget v "id" = some (Json.num (JNum.uint 0)) then .skip (buf.drop (s + i + 1))
        else .out ((buf.drop s).take (i + 1)) (buf.drop (s + i + 1))
      | none => .bad (buf.drop (s + i + 1))

theorem extractStep_rest_lt (b : List Char) (r : StepRes) (hr : extractStep b = r) :
    ∀ rest, (r = .skip rest ∨ r = .bad rest ∨ (∃ s, r = .out s rest)) →
      rest.length < b.length := by
  have hdrop : ∀ s₀ i, firstBrace b = some s₀ →
      (b.drop (s₀ + i + 1)).length < b.length := by
    intro s₀ i hfb
    have := firstBrace_lt b s₀ hfb
    simp only [List.length_drop]
    omega
  unfold extractStep at hr
  split at hr
  · subst hr
    intro rest hc
    rcases hc with hc | hc | ⟨s, hc⟩ <;> simp at hc
  · rename_i s₀ hfb
    split at hr
    · subst hr
      intro rest hc
      rcases hc with hc | hc | ⟨s, hc⟩ <;> simp at hc
    · rename_i i hfe
      split at hr
      · rename_i v hv
        split at hr
        · subst hr
          intro rest hc
          rcases hc with hc | hc | ⟨s, hc⟩ <;> simp at hc
          rw [← hc]
          exact hdrop s₀ i hfb
        · subst hr
          intro rest hc
          rcases hc with hc | hc | ⟨s, hc⟩ <;> simp at hc
          rw [← hc.2]
          exact hdrop s₀ i hfb
      · subst hr
        intro rest hc
        rcases hc with hc | hc | ⟨s, hc⟩ <;> simp at hc
        rw [← hc]
        exact hdrop s₀ i hfb

/-- `extract_json` (lean_repl.rs 246–295).  Returns the extracted text
(if any) together with the buffer as the Rust function leaves it:
untouched when no balanced object is present, truncated past the scanned
object otherwise — including the malformed-JSON case, which returns `none`
with the text already removed, and the `id == 0` handshake case, which
recurses on the remaining buffer. -/
def extract_json (buf : List Char) : Option (List Char) × List Char :=
  match h : extractStep buf with
  | .nothing => (none, buf)
  | .skip rest => extract_json rest
  | .bad rest => (none, rest)
  | .out s rest => (some s, rest)
termination_by buf.length
decreasing_by
  exact extractStep_rest_lt buf _ h rest (Or.inl rfl)

theorem extract_json_of_nothing (b : List Char) (h : extractStep b = .nothing) :
    extract_json b = (none, b) := by
  rw [extract_json]
  split <;> rename_i heq <;> rw [h] at heq <;> cases heq <;> rfl

theorem extract_json_of_skip (b rest : List Char) (h : extractStep b = .skip rest) :
    extract_json b = extract_json rest := by
  rw [extract_json]
  split <;> rename_i heq <;> rw [h] at heq <;> cases heq <;> rfl

theorem extract_json_of_bad (b rest : List Char) (h : extractStep b = .bad rest) :
    extract_json b = (none, rest) := by
  rw [extract_json]
  split <;> rename_i heq <;> rw [h] at heq <;> cases heq <;> rfl

theorem extract_json_of_out (b s rest : List Char) (h : extractStep b = .out s rest) :
    extract_json b = (some s, rest) := by
  rw [extract_json]
  split <;> rename_i heq <;> rw [h] at heq <;> cases heq <;> rfl

theorem extract_json_fst_some_lt :
    ∀ (buf s : List Char), (extract_json buf).1 = some s →
      (extract_json buf).2.length < buf.length := by
  intro buf
  induction buf using extract_json.induct with
  | case1 b hstep =>
    intro s h
    rw [extract_json_of_nothing b hstep] at h
    simp at h
  | case2 b rest hstep ih =>
    intro s h
    have hlt := extractStep_rest_lt b _ hstep rest (Or.inl rfl)
    rw [extract_json_of_skip b rest hstep] at h ⊢
    exact lt_trans (ih s h) hlt
  | case3 b rest hstep =>
    intro s h
    rw [extract_json_of_bad b rest hstep] at h
    simp at h
  | case4 b s₀ rest hstep =>
    intro s h
    rw [extract_json_of_out b s₀ rest hstep]
    exact extractStep_rest_lt b _ hstep rest (Or.inr (Or.inr ⟨s₀, rfl⟩))

/-- The stdout reader loop body after appending one line (lean_repl.rs
137–142): repeatedly call `extract_json`, forwarding each extracted text,
until it reports nothing. -/
def extractAll (buf : List Char) (acc : List (List Char)) :
    List (List Char) × List Char :=
  match h : extract_json buf with
  | (some s, rest) => extractAll rest (acc ++ [s])
  | (none, rest) => (acc, rest)
termination_by buf.length
decreasing_by
  have := extract_json_fst_some_lt buf s
  rw [h] at this
  exact this rfl

/-- One iteration of the reader loop: append the line and a newline to the
accumulating buffer (lean_repl.rs 134–135), then drain the framer. -/
def processLine (buf line : List Char) : List (List Char) × List Char :=
  extractAll (buf ++ line ++ ['\n']) []

/-- Feeding a sequence of raw stdout lines through the reader worker:
the extracted texts it forwards, and the final buffer. -/
def feedLines (lines : List (List Char)) : List (List Char) × List Char :=
  lines.foldl
    (fun st line =>
      let (out, b) := processLine st.2 line
      (st.1 ++ out, b))
    ([], [])

/-! ## `lean_repl.rs`: process lifecycle (`LeanReplError`, `start`,
`is_running`, `send_request`) and `handlers.rs`: `health_check`

The effects of the operating system — spawn success, pipe-handle capture,
channel sends, and what `recv_timeout` yields — are the environment the
functions branch on; they are passed in explicitly so that each Rust
function becomes a pure function of its environment, with the source's
control flow copied branch for branch. -/

/-- `LeanReplError` (lean_repl.rs 20–42). -/
inductive LeanReplError where
  | startFailed (msg : String)
  | notRunning
  | sendFailed (msg : String)
  | receiveFailed (msg : String)
  | timeout
  | invalidJson (msg : String)
  | io (msg : String)
deriving DecidableEq, Repr

/-- The environment `start` runs against: whether `is_running` already
reports a live process, whether `Command::spawn` succeeds (with the error's
text otherwise), and whether each of the three pipe handles is captured by
`take()`. -/
structure SpawnEnv where
  running : Bool
  spawnOk : Bool
  spawnErr : String
  stdinOk : Bool
  stdoutOk : Bool
  stderrOk : Bool
deriving DecidableEq, Repr

/-- `LeanRepl::start` (lean_repl.rs 79–176): no-op when already running;
spawn failure and stdin/stdout capture failure each abort with
`StartFailed`; the stderr handle is taken with `let stderr = …take()` and
merely skipped when absent (`if let Some`), so its capture failure does
not fail the call. -/
def LeanRepl.start (e : SpawnEnv) : Except LeanReplError Unit :=
  if e.running then .ok ()
  else if !e.spawnOk then .error (.startFailed e.spawnErr)
  else if !e.stdinOk then .error (.startFailed "Failed to capture stdin")
  else if !e.stdoutOk then .error (.startFailed "Failed to capture stdout")
  else .ok ()

/-- What `Child::try_wait` reports: `Ok(None)` (still running) or anything
else (exited or poll error). -/
inductive PollResult where
  | stillRunning
  | exitedOrErr
deriving DecidableEq, Repr

/-- `LeanRepl::is_running` (lean_repl.rs 64–76): false when no process
handle is held; otherwise the poll decides (an exited or unpollable
process also triggers `cleanup`, not modelled beyond the returned value —
callers only branch on the Bool). -/
def LeanRepl.is_running (hasProcess : Bool) (poll : PollResult) : Bool :=
  hasProcess && (poll == .stillRunning)

/-- `HealthResponse` (handlers.rs 46–50). -/
structure HealthResponse where
  status : String
  lean_repl : String
deriving DecidableEq, Repr

/-- `health_check` (handlers.rs 53–64): a total function — it constructs
its record unconditionally, `status` always `"ok"` and the bridge-state
field from `is_running` alone. -/
def health_check (hasProcess : Bool) (poll : PollResult) : HealthResponse :=
  { status := "ok",
    lean_repl := if LeanRepl.is_running hasProcess poll then "running" else "stopped" }

/-- What `response_rx.recv_timeout(30s)` yields: a framed message within
the bound, the `Timeout` error, or the `Disconnected` error. -/
inductive RecvOutcome where
  | msg (s : List Char)
  | timedOut
  | disconnected
deriving DecidableEq, Repr

/-- The environment one `send_request` call runs against. -/
structure SendEnv where
  running : Bool
  spawn : SpawnEnv
  channelsPresent : Bool
  sendOk : Bool
  recv : RecvOutcome
deriving DecidableEq, Repr

/-- `LeanRepl::send_request` (lean_repl.rs 179–215): implicit `start` when
not running; `NotRunning` if the channels are absent; serialization of the
request (infallible for these types; the `SendFailed` arm for it is dead);
`SendFailed` when the writer channel is closed; then the timeout-bounded
receive, whose two error variants map to `Timeout` and to
`ReceiveFailed("REPL disconnected")` respectively; finally the parse of
the received text, whose failure is `InvalidJson`. -/
def LeanRepl.send_request (env : SendEnv) (req : JsonRpcRequest) :
    Except LeanReplError JsonRpcResponse := do
  if !env.running then
    LeanRepl.start env.spawn
  if !env.channelsPresent then
    throw .notRunning
  let _wire := requestToChars req
  if !env.sendOk then
    throw (.sendFailed "channel closed")
  match env.recv with
  | .timedOut => throw .timeout
  | .disconnected => throw (.receiveFailed "REPL disconnected")
  | .msg s =>
    match responseFromChars s with
    | some resp => pure resp
    | none => throw (.invalidJson "parse error")

/-! ## `storage.rs`: `Storage::save` / `Storage::load`

The data directory is modelled as a map from file name to file content;
`fs::write` and `fs::read_to_string` become map update and lookup. -/

/-- The files under `Storage`'s data directory. -/
def FileSys := List (String × String)

def fsSet (fs : FileSys) (name content : String) : FileSys :=
  (name, content) :: (fs.filter (fun p => p.1 ≠ name))

def fsGet (fs : FileSys) (name : String) : Option String :=
  (fs.find? (fun p => p.1 == name)).map Prod.snd

/-- `Storage::save` (storage.rs 46–52): pretty-print the value and write
it to the file. -/
def Storage.save (fs : FileSys) (filename : String) (data : Json) : FileSys :=
  fsSet fs filename (String.mk (toStringPrettyL data))

/-- `Storage::load` (storage.rs 55–63): `Ok(None)` when the file does not
exist, a `Json` error when the content does not parse, `Ok(Some v)`
otherwise. -/
def Storage.load (fs : FileSys) (filename : String) : Except String (Option Json) :=
  match fsGet fs filename with
  | none => .ok none
  | some content =>
    match parseJsonL content.data with
    | some v => .ok (some v)
    | none => .error "JSON serialization error"

/-! ## Shared facts about the framer used by several claims -/

/-- The scanner's verdict that a buffer holds no complete top-level
object: either no `\x7b` at all, or the depth never returns to zero. -/
def hasCompleteObject (buf : List Char) : Bool :=
  match firstBrace buf with
  | none => false
  | some s => (findEnd (buf.drop s) 0 0 false false).isSome

theorem extractStep_of_not_complete (buf : List Char)
    (h : hasCompleteObject buf = false) : extractStep buf = .nothing := by
  unfold hasCompleteObject at h
  split at h
  · rename_i hfb
    simp only [extractStep, hfb]
  · rename_i s hfb
    cases hfe : findEnd (buf.drop s) 0 0 false false with
    | none => simp only [extractStep, hfb, hfe]
    | some i => rw [hfe] at h; simp at h

/-- Inverting a successful extraction step: the delivered text is the
text the step itself parsed and filtered, so it parses and its `id` is
not the integer `0`. -/
theorem extractStep_out_inv (b s rest : List Char) (h : extractStep b = .out s rest) :
    ∃ v : Json, parseJsonL s = some v ∧
      Json.jget v "id" ≠ some (Json.num (JNum.uint 0)) := by
  unfold extractStep at h
  split at h
  · cases h
  · split at h
    · cases h
    · split at h
      · rename_i v hv
        split at h
        · cases h
        · rename_i hid
          cases h
          exact ⟨v, hv, hid⟩
      · cases h

/-- Extending the buffer beyond a found matching brace does not change
what the scan finds. -/
theorem findEnd_append : ∀ (T : List Char) (i : Nat) (d : Int) (s e : Bool)
    (j : Nat) (R : List Char),
    findEnd T i d s e = some j → findEnd (T ++ R) i d s e = some j := by
  intro T
  induction T with
  | nil =>
    intro i d s e j R h
    simp [findEnd] at h
  | cons c t ih =>
    intro i d s e j R h
    rw [List.cons_append]
    simp only [findEnd] at h ⊢
    split_ifs at h ⊢ <;> first
      | exact ih _ _ _ _ _ _ h
      | exact h

/-- When a balanced, parseable, non-handshake object text sits complete at
the head of the buffer, one scan step cuts out exactly that text and keeps
exactly the bytes after it. -/
theorem extractStep_unsplit (tl rest : List Char) (v : Json)
    (hend : findEnd ('\x7b' :: tl) 0 0 false false
      = some (('\x7b' :: tl).length - 1))
    (hparse : parseJsonL ('\x7b' :: tl) = some v)
    (hid : Json.jget v "id" ≠ some (Json.num (JNum.uint 0))) :
    extractStep (('\x7b' :: tl) ++ rest) = .out ('\x7b' :: tl) rest := by
  have hfb : firstBrace (('\x7b' :: tl) ++ rest) = some 0 := rfl
  have hlen : ('\x7b' :: tl).length - 1 + 1 = ('\x7b' :: tl).length := by simp
  have hfeA : findEnd ((('\x7b' :: tl) ++ rest).drop 0) 0 0 false false
      = some (('\x7b' :: tl).length - 1) := by
    rw [List.drop_zero]
    exact findEnd_append _ 0 0 false false _ rest hend
  have htake : ((('\x7b' :: tl) ++ rest).drop 0).take (('\x7b' :: tl).length - 1 + 1)
      = '\x7b' :: tl := by
    rw [List.drop_zero, hlen]
    exact List.take_left _ _
  have hdrop : (('\x7b' :: tl) ++ rest).drop (0 + (('\x7b' :: tl).length - 1) + 1)
      = rest := by
    have h0 : 0 + (('\x7b' :: tl).length - 1) + 1 = ('\x7b' :: tl).length := by
      simp
    rw [h0]
    exact List.drop_left _ _
  show (match firstBrace (('\x7b' :: tl) ++ rest) with
    | none => StepRes.nothing
    | some s =>
      match findEnd ((('\x7b' :: tl) ++ rest).drop s) 0 0 false false with
      | none => StepRes.nothing
      | some i =>
        match parseJsonL (((('\x7b' :: tl) ++ rest).drop s).take (i + 1)) with
        | some w =>
          if Json.jget w "id" = some (Json.num (JNum.uint 0)) then
            StepRes.skip ((('\x7b' :: tl) ++ rest).drop (s + i + 1))
          else
            StepRes.out (((('\x7b' :: tl) ++ rest).drop s).take (i + 1))
              ((('\x7b' :: tl) ++ rest).drop (s + i + 1))
        | none => StepRes.bad ((('\x7b' :: tl) ++ rest).drop (s + i + 1))) = _
  rw [hfb]
  show (match findEnd ((('\x7b' :: tl) ++ rest).drop 0) 0 0 false false with
    | none => StepRes.nothing
    | some i =>
      match parseJsonL (((('\x7b' :: tl) ++ rest).drop 0).take (i + 1)) with
      | some w =>
        if Json.jget w "id" = some (Json.num (JNum.uint 0)) then
          StepRes.skip ((('\x7b' :: tl) ++ rest).drop (0 + i + 1))
        else
          StepRes.out (((('\x7b' :: tl) ++ rest).drop 0).take (i + 1))
            ((('\x7b' :: tl) ++ rest).drop (0 + i + 1))
      | none => StepRes.bad ((('\x7b' :: tl) ++ rest).drop (0 + i + 1))) = _
  rw [hfeA]
  show (match parseJsonL (((('\x7b' :: tl) ++ rest).drop 0).take
      (('\x7b' :: tl).length - 1 + 1)) with
    | some w =>
      if Json.jget w "id" = some (Json.num (JNum.uint 0)) then
        StepRes.skip ((('\x7b' :: tl) ++ rest).drop (0 + (('\x7b' :: tl).length - 1) + 1))
      else
        StepRes.out (((('\x7b' :: tl) ++ rest).drop 0).take (('\x7b' :: tl).length - 1 + 1))
          ((('\x7b' :: tl) ++ rest).drop (0 + (('\x7b' :: tl).length - 1) + 1))
    | none => StepRes.bad
        ((('\x7b' :: tl) ++ rest).drop (0 + (('\x7b' :: tl).length - 1) + 1))) = _
  rw [htake, hparse]
  show (if Json.jget v "id" = some (Json.num (JNum.uint 0)) then
      StepRes.skip ((('\x7b' :: tl) ++ rest).drop (0 + (('\x7b' :: tl).length - 1) + 1))
    else
      StepRes.out ('\x7b' :: tl)
        ((('\x7b' :: tl) ++ rest).drop (0 + (('\x7b' :: tl).length - 1) + 1))) = _
  rw [if_neg hid, hdrop]

/-- Unfolding `extractAll` when the framer extracts something. -/
theorem extractAll_of_some (b s rest : List Char) (acc : List (List Char))
    (h : extract_json b = (some s, rest)) :
    extractAll b acc = extractAll rest (acc ++ [s]) := by
  rw [extractAll]
  split <;> rename_i heq <;> rw [h] at heq <;> cases heq <;> rfl

/-- Unfolding `extractAll` when the framer reports nothing. -/
theorem extractAll_of_none (b rest : List Char) (acc : List (List Char))
    (h : extract_json b = (none, rest)) :
    extractAll b acc = (acc, rest) := by
  rw [extractAll]
  split <;> rename_i heq <;> rw [h] at heq <;> cases heq <;> rfl

/-- Pushing a failing value parse through `parseJsonL`, stated on an
abstract input so the document itself is never evaluated. -/
theorem parseJsonL_eq_none (cs : List Char)
    (h : parseVal (2 * cs.length + 4) recursionLimit (skipWs cs) = none) :
    parseJsonL cs = none := by
  show (match parseVal (2 * cs.length + 4) recursionLimit (skipWs cs) with
    | some (v, r) => if skipWs r = [] then some v else none
    | none => none) = none
  rw [h]

/-- `Storage::load` surfaces a parse failure of the stored file as the
JSON error, stated abstractly. -/
theorem Storage.load_of_parse_none (fs : FileSys) (f content : String)
    (hget : fsGet fs f = some content)
    (hparse : parseJsonL content.data = none) :
    Storage.load fs f = .error "JSON serialization error" := by
  show (match fsGet fs f with
    | none => Except.ok none
    | some content =>
      match parseJsonL content.data with
      | some w => Except.ok (some w)
      | none => Except.error "JSON serialization error")
    = Except.error "JSON serialization error"
  rw [hget]
  show (match parseJsonL content.data with
    | some w => Except.ok (some w)
    | none => Except.error "JSON serialization error") = _
  rw [hparse]

/-! ## Claim theorems -/

/-- A well-formed sample request shared by several witnesses. -/
def sampleReq : JsonRpcRequest :=
  ⟨"2.0", "ping", Json.obj [], Json.num (JNum.uint 1)⟩

/-- C8: `health_check` never fails (it is a total record constructor in
the model, as in the source) and returns `status = "ok"` always, with the
bridge-state field `"running"` exactly when the supervisor's liveness poll
(`is_running`) reports the process running, `"stopped"` otherwise. -/
theorem health_check_ok_and_reflects_liveness :
    ∀ (hasProcess : Bool) (poll : PollResult),
      (health_check hasProcess poll).status = "ok" ∧
      ((health_check hasProcess poll).lean_repl = "running" ↔
        LeanRepl.is_running hasProcess poll = true) ∧
      ((health_check hasProcess poll).lean_repl = "stopped" ↔
        LeanRepl.is_running hasProcess poll = false) := by
  intro hp poll
  unfold health_check
  by_cases h : LeanRepl.is_running hp poll = true
  · simp [h]
  · simp only [Bool.not_eq_true] at h
    simp [h]

/-- C2 counterexample: with the spawn succeeding and stdin and stdout
captured but the stderr handle not captured, `start` nevertheless
succeeds — the source takes stderr with `let stderr = process.stderr.take()`
and a plain `if let Some`, so a missing stderr handle only skips the
logging thread (lean_repl.rs 150–160), refuting the claim that failure to
capture any of the three stream handles fails the call. -/
theorem start_ok_despite_stderr_capture_failure :
    LeanRepl.start ⟨false, true, "", true, true, false⟩ = .ok () := rfl

/-- C2 (amended): when not already running, `start` succeeds exactly when
the spawn and the stdin and stdout captures succeed — the stderr capture
does not participate — and each failure yields `StartFailed` carrying the
underlying cause (the spawn error's text, or the fixed capture message). -/
theorem start_error_conditions (e : SpawnEnv) (h : e.running = false) :
    (LeanRepl.start e = .ok () ↔ (e.spawnOk = true ∧ e.stdinOk = true ∧ e.stdoutOk = true)) ∧
    (e.spawnOk = false → LeanRepl.start e = .error (.startFailed e.spawnErr)) ∧
    (e.spawnOk = true → e.stdinOk = false →
      LeanRepl.start e = .error (.startFailed "Failed to capture stdin")) ∧
    (e.spawnOk = true → e.stdinOk = true → e.stdoutOk = false →
      LeanRepl.start e = .error (.startFailed "Failed to capture stdout")) := by
  unfold LeanRepl.start
  rw [h]
  cases hsp : e.spawnOk <;> cases hsi : e.stdinOk <;> cases hso : e.stdoutOk <;> simp

/-- Witness for the amended C2 theorem at a concrete environment. -/
theorem start_error_conditions_witness :
    LeanRepl.start ⟨false, false, "boom", true, true, true⟩ = .error (.startFailed "boom") :=
  (start_error_conditions ⟨false, false, "boom", true, true, true⟩ rfl).2.1 rfl

/-- C6: once a `send_request` call has passed the send (running, channels
present, writer channel accepted the request), the elapsed 30-second bound
yields exactly `Timeout` and a closed reader channel yields exactly
`ReceiveFailed "REPL disconnected"` — each failure kind occurs for its
outcome and no other (lean_repl.rs 197–206). -/
theorem send_request_timeout_vs_disconnect (env : SendEnv) (req : JsonRpcRequest)
    (hrun : env.running = true) (hch : env.channelsPresent = true)
    (hsend : env.sendOk = true) :
    (LeanRepl.send_request env req = .error .timeout ↔ env.recv = .timedOut) ∧
    (LeanRepl.send_request env req = .error (.receiveFailed "REPL disconnected") ↔
      env.recv = .disconnected) := by
  cases hr : env.recv with
  | msg s =>
    cases hresp : responseFromChars s <;>
      simp [LeanRepl.send_request, hrun, hch, hsend, hr, hresp, throw, throwThe,
        MonadExceptOf.throw, pure, Except.pure, bind, Except.bind]
  | timedOut =>
    simp [LeanRepl.send_request, hrun, hch, hsend, hr, throw, throwThe,
      MonadExceptOf.throw, bind, Except.bind, pure, Except.pure]
  | disconnected =>
    simp [LeanRepl.send_request, hrun, hch, hsend, hr, throw, throwThe,
      MonadExceptOf.throw, bind, Except.bind, pure, Except.pure]

/-- Witness for C6 at a concrete environment (timeout side). -/
theorem send_request_timeout_vs_disconnect_witness :
    LeanRepl.send_request ⟨true, ⟨true, true, "", true, true, true⟩, true, true, .timedOut⟩
      sampleReq = .error .timeout :=
  (send_request_timeout_vs_disconnect
    ⟨true, ⟨true, true, "", true, true, true⟩, true, true, .timedOut⟩
    sampleReq rfl rfl rfl).1.mpr rfl

/-- C5: a buffer with no complete top-level object (the scan never sees
the depth return to zero — including a buffer with no `\x7b` at all) makes
the framer report nothing and leave the buffer exactly unchanged
(lean_repl.rs 246–283: both `?` early returns fire before the buffer is
reassigned). -/
theorem extract_json_incomplete_leaves_buffer (buf : List Char)
    (h : hasCompleteObject buf = false) : extract_json buf = (none, buf) :=
  extract_json_of_nothing buf (extractStep_of_not_complete buf h)

/-- Witness for C5 on the spec's own example content. -/
theorem extract_json_incomplete_leaves_buffer_witness :
    extract_json "\x7b\"id\":1".data = (none, "\x7b\"id\":1".data) :=
  extract_json_incomplete_leaves_buffer "\x7b\"id\":1".data (by decide)

/-- C9: the handshake filter compares the parsed `id` against
`serde_json::json!(0)`, whose equality is variant-exact — a response whose
`id` is the string `"0"`, the float literal `0.0`, or absent entirely is
extracted and delivered, while only the exact integer `0` is treated as
the handshake and discarded. -/
theorem handshake_filter_matches_only_integer_zero :
    extract_json "\x7b\"jsonrpc\":\"2.0\",\"result\":1,\"id\":\"0\"\x7d".data
      = (some "\x7b\"jsonrpc\":\"2.0\",\"result\":1,\"id\":\"0\"\x7d".data, []) ∧
    extract_json "\x7b\"jsonrpc\":\"2.0\",\"result\":1,\"id\":0.0\x7d".data
      = (some "\x7b\"jsonrpc\":\"2.0\",\"result\":1,\"id\":0.0\x7d".data, []) ∧
    extract_json "\x7b\"jsonrpc\":\"2.0\",\"result\":1\x7d".data
      = (some "\x7b\"jsonrpc\":\"2.0\",\"result\":1\x7d".data, []) ∧
    extract_json "\x7b\"jsonrpc\":\"2.0\",\"result\":1,\"id\":0\x7d".data = (none, []) :=
  ⟨extract_json_of_out _ _ _ (by decide),
   extract_json_of_out _ _ _ (by decide),
   extract_json_of_out _ _ _ (by decide),
   by
     rw [extract_json_of_skip _ [] (by decide)]
     exact extract_json_of_nothing [] (by decide)⟩

/-- C4: whatever the buffer holds, a text the framer returns never parses
to a value whose `id` field is the integer `0` — the step that produced it
parsed it and passed the handshake filter, and parsing is a function, so
the delivered text cannot also parse to a handshake. -/
theorem framer_never_delivers_id_zero :
    ∀ (buf out rest : List Char), extract_json buf = (some out, rest) →
      ∀ v : Json, parseJsonL out = some v →
        Json.jget v "id" ≠ some (Json.num (JNum.uint 0)) := by
  intro buf
  induction buf using extract_json.induct with
  | case1 b hstep =>
    intro out rest h
    rw [extract_json_of_nothing b hstep] at h
    simp at h
  | case2 b r hstep ih =>
    intro out rest h
    rw [extract_json_of_skip b r hstep] at h
    exact ih out rest h
  | case3 b r hstep =>
    intro out rest h
    rw [extract_json_of_bad b r hstep] at h
    simp at h
  | case4 b s₀ r hstep =>
    intro out rest h v hv
    rw [extract_json_of_out b s₀ r hstep] at h
    obtain ⟨v₀, hp, hid⟩ := extractStep_out_inv b s₀ r hstep
    have hout : out = s₀ := by cases h; rfl
    subst hout
    rw [hp] at hv
    cases hv
    exact hid

/-- Witness for C4: a buffer holding a handshake followed by a real
response; the framer skips the former and delivers the latter, whose `id`
is `1`. -/
theorem framer_never_delivers_id_zero_witness :
    Json.jget (Json.obj [("id", Json.num (JNum.uint 1))]) "id"
      ≠ some (Json.num (JNum.uint 0)) :=
  framer_never_delivers_id_zero "\x7b\"id\":0\x7d\x7b\"id\":1\x7dx".data
    "\x7b\"id\":1\x7d".data ['x']
    (by
      rw [extract_json_of_skip _ ("\x7b\"id\":1\x7dx".data) (by decide)]
      exact extract_json_of_out _ _ _ (by decide))
    (Json.obj [("id", Json.num (JNum.uint 1))]) (by decide)

/-- C1 counterexample: `send_request`'s parse step accepts both a response
with neither `result` nor `error` and a response with both — the derived
deserializer of `JsonRpcResponse` has two independent `Option` fields and
no exactly-one validation, so neither text is rejected with an
invalid-response error. -/
theorem send_request_accepts_result_error_violations :
    LeanRepl.send_request
        ⟨true, ⟨true, true, "", true, true, true⟩, true, true,
          .msg "\x7b\"jsonrpc\":\"2.0\",\"id\":1\x7d".data⟩ sampleReq
      = .ok ⟨"2.0", none, none, Json.num (JNum.uint 1)⟩ ∧
    LeanRepl.send_request
        ⟨true, ⟨true, true, "", true, true, true⟩, true, true,
          .msg ("\x7b\"jsonrpc\":\"2.0\",\"result\":1," ++
            "\"error\":\x7b\"code\":-32603,\"message\":\"m\"\x7d,\"id\":1\x7d").data⟩
        sampleReq
      = .ok ⟨"2.0", some (Json.num (JNum.uint 1)),
          some ⟨-32603, "m", none⟩, Json.num (JNum.uint 1)⟩ :=
  ⟨rfl, rfl⟩

theorem optField_of_ne_null (w : Json) (h : w ≠ .null) : optField (some w) = some w := by
  cases w <;> simp [optField] <;> exact (h rfl).elim

/-- C1 (amended): the response parser performs no exactly-one-of
`result`/`error` check.  A response object carrying `jsonrpc` and `id`
alone parses successfully with both fields absent, and one carrying a
non-null `result` and a well-formed non-null `error` parses successfully
with both fields present; rejection happens only for malformed JSON or
for missing/ill-typed `jsonrpc`, `id`, or `error`-object contents. -/
theorem response_parsing_has_no_exactly_one_check
    (s : String) (idv rv ev : Json) (er : JsonRpcError)
    (hrv : rv ≠ .null) (hev : ev ≠ .null) (herr : errOfJson ev = some er) :
    respOfJson (.obj [("id", idv), ("jsonrpc", .str s)])
      = some ⟨s, none, none, idv⟩ ∧
    respOfJson (.obj [("error", ev), ("id", idv), ("jsonrpc", .str s), ("result", rv)])
      = some ⟨s, some rv, some er, idv⟩ := by
  constructor
  · have h1 : Json.jget (Json.obj [("id", idv), ("jsonrpc", Json.str s)]) "jsonrpc"
        = some (Json.str s) := rfl
    have h2 : Json.jget (Json.obj [("id", idv), ("jsonrpc", Json.str s)]) "id"
        = some idv := rfl
    have h3 : Json.jget (Json.obj [("id", idv), ("jsonrpc", Json.str s)]) "result"
        = none := rfl
    have h4 : Json.jget (Json.obj [("id", idv), ("jsonrpc", Json.str s)]) "error"
        = none := rfl
    simp [respOfJson, h1, h2, h3, h4, asString, optField]
  · have h1 : Json.jget
        (Json.obj [("error", ev), ("id", idv), ("jsonrpc", Json.str s), ("result", rv)])
        "jsonrpc" = some (Json.str s) := rfl
    have h2 : Json.jget
        (Json.obj [("error", ev), ("id", idv), ("jsonrpc", Json.str s), ("result", rv)])
        "id" = some idv := rfl
    have h3 : Json.jget
        (Json.obj [("error", ev), ("id", idv), ("jsonrpc", Json.str s), ("result", rv)])
        "result" = some rv := rfl
    have h4 : Json.jget
        (Json.obj [("error", ev), ("id", idv), ("jsonrpc", Json.str s), ("result", rv)])
        "error" = some ev := rfl
    simp [respOfJson, h1, h2, h3, h4, asString,
      optField_of_ne_null rv hrv, optField_of_ne_null ev hev, herr]

/-- Witness for the amended C1 theorem at concrete values. -/
theorem response_parsing_has_no_exactly_one_check_witness :
    respOfJson (.obj [("id", Json.num (JNum.uint 1)), ("jsonrpc", .str "2.0")])
      = some ⟨"2.0", none, none, Json.num (JNum.uint 1)⟩ ∧
    respOfJson (.obj [("error", Json.obj [("code", Json.num (JNum.int (-32603))),
        ("message", Json.str "m")]), ("id", Json.num (JNum.uint 1)),
        ("jsonrpc", .str "2.0"), ("result", Json.num (JNum.uint 7))])
      = some ⟨"2.0", some (Json.num (JNum.uint 7)),
          some ⟨-32603, "m", none⟩, Json.num (JNum.uint 1)⟩ :=
  response_parsing_has_no_exactly_one_check "2.0" (Json.num (JNum.uint 1))
    (Json.num (JNum.uint 7))
    (Json.obj [("code", Json.num (JNum.int (-32603))), ("message", Json.str "m")])
    ⟨-32603, "m", none⟩ (by simp) (by simp) (by decide)

/-- C3 (amended): a complete response object text that reaches the reader
UNSPLIT — as one line — is delivered exactly: the framer emits that one
text and the buffer keeps only what follows it (the newline the reader
itself appended).  The universally split version of the claim is refuted
by `framer_drops_split_response`: splitting inserts a newline into the
framed text. -/
theorem framer_unsplit_line_delivers (tl : List Char) (v : Json)
    (hend : findEnd ('\x7b' :: tl) 0 0 false false
      = some (('\x7b' :: tl).length - 1))
    (hparse : parseJsonL ('\x7b' :: tl) = some v)
    (hid : Json.jget v "id" ≠ some (Json.num (JNum.uint 0))) :
    processLine [] ('\x7b' :: tl) = ([('\x7b' :: tl)], ['\n']) := by
  have h1 : extract_json (('\x7b' :: tl) ++ ['\n'])
      = (some ('\x7b' :: tl), ['\n']) :=
    extract_json_of_out _ _ _ (extractStep_unsplit tl ['\n'] v hend hparse hid)
  have h2 : extract_json ['\n'] = (none, ['\n']) :=
    extract_json_of_nothing _ (by decide)
  show extractAll ((([] : List Char) ++ ('\x7b' :: tl)) ++ ['\n']) [] = _
  rw [show (([] : List Char) ++ ('\x7b' :: tl)) ++ ['\n']
      = ('\x7b' :: tl) ++ ['\n'] by simp,
    extractAll_of_some _ _ _ [] h1,
    extractAll_of_none _ _ ([] ++ [('\x7b' :: tl)]) h2]
  simp

/-- Witness for the amended C3 theorem at a concrete response line. -/
theorem framer_unsplit_line_delivers_witness :
    findEnd ('\x7b' :: "\"id\":1\x7d".data) 0 0 false false
        = some (('\x7b' :: "\"id\":1\x7d".data).length - 1) ∧
    parseJsonL ('\x7b' :: "\"id\":1\x7d".data)
        = some (Json.obj [("id", Json.num (JNum.uint 1))]) ∧
    processLine [] ('\x7b' :: "\"id\":1\x7d".data)
        = ([('\x7b' :: "\"id\":1\x7d".data)], ['\n']) :=
  ⟨by decide, by decide,
    framer_unsplit_line_delivers "\"id\":1\x7d".data
      (Json.obj [("id", Json.num (JNum.uint 1))])
      (by decide) (by decide) (by decide)⟩

/-- First line of a response text split mid-string. -/
def respLine1 : List Char := "\x7b\"jsonrpc\":\"2.0\",\"result\":\"a".data

/-- Second line of the split response text. -/
def respLine2 : List Char := " b\",\"id\":1\x7d".data

/-- C3 counterexample: the two lines concatenate to a well-formed response
text `T`, yet feeding them as separate reader lines delivers NO object:
the reader splices a `'\n'` in at the split point (lean_repl.rs 134–135),
the framed text then fails to parse — a raw control character inside the
string literal — and `extract_json` drops it, leaving only the trailing
newline in the buffer.  This refutes "for every way of splitting T across
line boundaries … exactly one extracted object equal to T". -/
theorem framer_drops_split_response :
    (responseFromChars (respLine1 ++ respLine2)).isSome = true ∧
    feedLines [respLine1, respLine2] = ([], ['\n']) := by
  constructor
  · decide
  · have h1 : extract_json (respLine1 ++ ['\n']) = (none, respLine1 ++ ['\n']) :=
      extract_json_of_nothing _ (by decide)
    have h3 : extract_json (((respLine1 ++ ['\n']) ++ respLine2) ++ ['\n'])
        = (none, ['\n']) :=
      extract_json_of_bad _ _ (by decide)
    have hp1 : processLine [] respLine1 = ([], respLine1 ++ ['\n']) :=
      extractAll_of_none _ _ [] h1
    have hp2 : processLine (respLine1 ++ ['\n']) respLine2 = ([], ['\n']) :=
      extractAll_of_none _ _ [] h3
    simp only [feedLines, List.foldl, hp1, hp2, List.nil_append, List.append_nil]

/-- C7 (amended): serializing a request and deserializing the text gives
back a request equal in all four fields, for every request whose `params`
and `id` are well-formed in-memory values and whose wire document stays
strictly within serde_json's recursion limit — the request object itself
consumes one level and `check_recursion` rejects the 128th, so `params`
and `id` may nest at most 126.  The unlimited version of the claim is
refuted by `request_roundtrip_fails_beyond_depth`. -/
theorem request_roundtrip_within_depth (r : JsonRpcRequest)
    (hp : wf r.params = true) (hid : wf r.id = true)
    (hdp : jdepth r.params + 1 < recursionLimit)
    (hdi : jdepth r.id + 1 < recursionLimit) :
    requestFromChars (requestToChars r) = some r := by
  obtain ⟨a, m, p, i⟩ := r
  have hp' : wf p = true := hp
  have hid' : wf i = true := hid
  have hdp' : jdepth p + 1 < recursionLimit := hdp
  have hdi' : jdepth i + 1 < recursionLimit := hdi
  have hwfms : wfFields [("method", Json.str m), ("params", p), ("id", i)] = true := by
    simp [wfFields, wf, hp', hid']
  have hd : depthFields [("method", Json.str m), ("params", p), ("id", i)]
      = max 0 (max (jdepth p) (max (jdepth i) 0)) := rfl
  have h := parseJsonL_render_obj compactL compactL_ws "jsonrpc" (Json.str a)
    [("method", Json.str m), ("params", p), ("id", i)] rfl hwfms
    (by show (0 : Nat) + 1 < recursionLimit; decide)
    (by rw [hd]; omega)
  show (parseJsonL (renderVal compactL 0 (Json.obj [("jsonrpc", Json.str a),
      ("method", Json.str m), ("params", p), ("id", i)]))).bind reqOfJson
    = some ⟨a, m, p, i⟩
  rw [h, show Json.buildMap [("jsonrpc", Json.str a), ("method", Json.str m),
      ("params", p), ("id", i)]
    = [("id", i), ("jsonrpc", Json.str a), ("method", Json.str m), ("params", p)]
    from rfl]
  rfl

/-- Witness for the amended C7 theorem at a concrete request with nested
object params. -/
theorem request_roundtrip_within_depth_witness :
    wf (Json.obj [("cmd", Json.str "check")]) = true ∧
    jdepth (Json.obj [("cmd", Json.str "check")]) + 1 < recursionLimit ∧
    requestFromChars (requestToChars
      ⟨"2.0", "advice", Json.obj [("cmd", Json.str "check")], Json.num (JNum.uint 3)⟩)
      = some ⟨"2.0", "advice", Json.obj [("cmd", Json.str "check")],
          Json.num (JNum.uint 3)⟩ :=
  ⟨by decide, by decide,
    request_roundtrip_within_depth _ (by decide) (by decide) (by decide) (by decide)⟩

set_option maxRecDepth 4000 in
/-- C7 counterexample: a request whose `params` nests 127 arrays — a
perfectly constructible in-memory value — serializes fine, but the wire
text then has container depth 128 (the request object itself adds one
level), and `check_recursion` already errors on entering the 128th
container, so deserialization fails: the round trip does NOT hold for
arbitrary nested params. -/
theorem request_roundtrip_fails_beyond_depth :
    requestFromChars (requestToChars
      ⟨"2.0", "ping", nestArr 127, Json.num (JNum.uint 1)⟩) = none := by decide

/-- C10 (amended): `Storage::save` then `Storage::load` on the same file
name returns `Ok(Some v)` for every well-formed value `v` of container
depth strictly below serde_json's recursion limit (at most 127 —
`check_recursion` rejects the 128th nested container); the unlimited
version of the claim is refuted by `storage_load_fails_beyond_depth`. -/
theorem storage_save_load_roundtrip (fs : FileSys) (f : String) (v : Json)
    (hwf : wf v = true) (hdep : jdepth v < recursionLimit) :
    Storage.load (Storage.save fs f v) f = .ok (some v) := by
  have hget : fsGet (Storage.save fs f v) f
      = some (String.mk (toStringPrettyL v)) := by
    simp [Storage.save, fsSet, fsGet, List.find?]
  show (match fsGet (Storage.save fs f v) f with
    | none => Except.ok none
    | some content =>
      match parseJsonL content.data with
      | some w => Except.ok (some w)
      | none => Except.error "JSON serialization error") = Except.ok (some v)
  rw [hget]
  show (match parseJsonL (toStringPrettyL v) with
    | some w => Except.ok (some w)
    | none => Except.error "JSON serialization error") = _
  rw [toStringPrettyL_roundtrip v hwf hdep]

/-- Witness for the amended C10 theorem at a concrete object value. -/
theorem storage_save_load_roundtrip_witness :
    wf (Json.obj [("amount", Json.num (JNum.uint 1200))]) = true ∧
    jdepth (Json.obj [("amount", Json.num (JNum.uint 1200))]) < recursionLimit ∧
    Storage.load (Storage.save [] "payments.json"
        (Json.obj [("amount", Json.num (JNum.uint 1200))])) "payments.json"
      = .ok (some (Json.obj [("amount", Json.num (JNum.uint 1200))])) :=
  ⟨by decide, by decide,
    storage_save_load_roundtrip [] "payments.json" _ (by decide) (by decide)⟩

/-- C10 counterexample: a value of container depth 128 — constructible in
memory, and `save` happily writes it — comes back as a `Json` parse error
from `load`, not `Ok(Some v)`: `check_recursion`, decrementing its
remaining depth of 128 and erroring at zero, rejects the 128th nested
container of the pretty-printed file. -/
theorem storage_load_fails_beyond_depth :
    Storage.load (Storage.save [] "advice_log.json" (nestArr 128)) "advice_log.json"
      = .error "JSON serialization error" := by
  have hnone : parseVal (2 * (renderVal prettyL 0 (nestArr 128)).length + 4)
      recursionLimit (renderVal prettyL 0 (nestArr 128)) = none := by
    have h := parseVal_nestArr_none prettyL prettyL_ws 128 recursionLimit
      (by decide) (by decide)
      (2 * (renderVal prettyL 0 (nestArr 128)).length + 4) 0 []
    rwa [List.append_nil] at h
  have hskip0 : skipWs (renderVal prettyL 0 (nestArr 128))
      = renderVal prettyL 0 (nestArr 128) := by
    have h2 := skipWs_renderVal prettyL 0 (nestArr 128) []
    rwa [List.append_nil] at h2
  have hparse : parseJsonL (renderVal prettyL 0 (nestArr 128)) = none :=
    parseJsonL_eq_none _ (by rw [hskip0]; exact hnone)
  have hget : fsGet (Storage.save [] "advice_log.json" (nestArr 128)) "advice_log.json"
      = some (String.mk (toStringPrettyL (nestArr 128))) := by
    simp [Storage.save, fsSet, fsGet, List.find?]
  exact Storage.load_of_parse_none _ _ _ hget
    (by
      rw [show (String.mk (toStringPrettyL (nestArr 128))).data
        = toStringPrettyL (nestArr 128) from rfl]
      exact hparse)
